import Mathlib

/-!
# Verification of the `ripgzip` gzip/DEFLATE decompressor

A shallow embedding of the Rust sources (`bit_reader.rs`, `tracking_writer.rs`,
`huffman_coding.rs`, `deflate.rs`, `gzip.rs`) into Lean, together with theorems
settling the specification claims.

Conventions of the embedding:
* Bytes are `Nat` values (callers keep them `< 256`, just as `u8` does in Rust).
* Machine integers are `Nat` with explicit `% 2 ^ w` at the points where Rust
  wraps (`u16` shifts), and a `panic` error at the points where Rust's
  debug-mode checks fire (failed `assert!`, arithmetic overflow, out-of-range
  shift amounts, slice-index panics).
* Fallible operations return `Except Err α`; a Rust loop that can never exit is
  the distinguished error `Err.nonTermination`.
* The `inner` sink of `TrackingWriter` is instantiated with a `Vec<u8>`-like
  sink that accepts every byte offered (`inner.write(buf)` returns
  `buf.len()`), which is the instantiation the decompression pipeline uses.
-/

set_option maxHeartbeats 1000000
set_option maxRecDepth 8192

namespace Ripgzip

/-- Failure modes of the embedded code.  `panic` stands for a Rust panic
(failed `assert!`, debug-mode arithmetic overflow, slice-index panic);
`nonTermination` marks a Rust loop that can never exit. -/
inductive Err where
  | panic
  | nonTermination
  | unexpectedEof
  /-- `read_symbol` exhausted 16 accumulated bits (`anyhow!(":(")`). -/
  | badCode
  /-- `TreeCodeToken::try_from`: "CL bad code". -/
  | clBadCode (n : Nat)
  /-- `LitLenToken::try_from`: "LL bad code". -/
  | llBadCode (n : Nat)
  /-- `DistanceToken::try_from`: "D bad code". -/
  | dBadCode (n : Nat)
  /-- `decode_litlen_distance_trees`: "nothing to copy". -/
  | nothingToCopy
  /-- `decode_litlen_distance_trees`: `ensure!(hclen <= 19)`. -/
  | hclenTooBig
  /-- `write_previous`: "Trying to write very far". -/
  | badBackReference
  /-- `write_previous`: "written less". -/
  | writtenLess
  /-- `deflate`: "unsupported block type" / "bad compression type". -/
  | badBlockType
  /-- `deflate`: "nlen check failed". -/
  | badStoredHeader
  /-- `parse_header`: "wrong id values". -/
  | badMagic
  /-- `parse_header`: "unsupported compression method". -/
  | unsupportedMethod
  /-- `String::from_utf8` failure in `parse_header`. -/
  | invalidUtf8
  /-- `parse_header`: "header crc16 check failed". -/
  | badHeaderCrc
  /-- `decompress`: "length check failed". -/
  | lengthMismatch
  /-- `decompress`: "crc32 check failed". -/
  | crcMismatch
  deriving DecidableEq, Repr

deriving instance DecidableEq for Except

/-! ## CRC-32 (ISO-HDLC), as used by the `crc` crate

Reflected polynomial `0xEDB88320`, initial value `0xFFFFFFFF`,
final xor `0xFFFFFFFF`. -/

def crc32Poly : Nat := 0xEDB88320

/-- One bit step of the reflected CRC-32. -/
def crc32StepBit (c : Nat) : Nat :=
  if c % 2 = 1 then (c / 2) ^^^ crc32Poly else c / 2

def crc32Bits : Nat → Nat → Nat
  | 0, c => c
  | n + 1, c => crc32Bits n (crc32StepBit c)

/-- Feed one byte into the running CRC state. -/
def crc32Byte (c b : Nat) : Nat := crc32Bits 8 (c ^^^ (b % 256))

/-- `Digest::update`: feed a sequence of bytes into the running CRC state. -/
def crc32Update (c : Nat) (bs : List Nat) : Nat := bs.foldl crc32Byte c

def crc32Init : Nat := 0xFFFFFFFF

/-- `Digest::finalize`. -/
def crc32Finalize (c : Nat) : Nat := c ^^^ 0xFFFFFFFF

/-- CRC-32 (ISO-HDLC) of a byte sequence. -/
def crc32 (bs : List Nat) : Nat := crc32Finalize (crc32Update crc32Init bs)

/-! ## `tracking_writer.rs` -/

def historySize : Nat := 32768

/-- State of `TrackingWriter<T>` with the inner sink `T` instantiated by an
all-accepting `Vec<u8>`-like sink; `inner` records the bytes the sink has
accepted, `crc` is the running (pre-finalize) CRC-32 digest state. -/
structure TrackingWriter where
  inner : List Nat
  history : List Nat
  byteCount : Nat
  crc : Nat
  deriving DecidableEq, Repr

def TrackingWriter.new : TrackingWriter :=
  ⟨[], [], 0, crc32Init⟩

/-- Embedding of `<TrackingWriter as Write>::write` (tracking_writer.rs:21-35).
The all-accepting inner sink returns `written_len = buf.len()`. -/
def TrackingWriter.write (w : TrackingWriter) (buf : List Nat) :
    TrackingWriter × Nat :=
  let written := buf
  let writtenLen := written.length
  let digest := crc32Update w.crc written
  let history :=
    if historySize < writtenLen then
      ([] : List Nat)
    else if historySize < writtenLen + w.history.length then
      w.history.drop (writtenLen + w.history.length - historySize)
    else
      w.history
  (⟨w.inner ++ written, history ++ written, w.byteCount + writtenLen, digest⟩,
   writtenLen)

/-- Embedding of the `while chunk.len() < len` extension loop of
`write_previous` (tracking_writer.rs:67-72).  `extend_from_within(0..initial_len)`
appends the first `initial_len` bytes of the current chunk; the chunk is
truncated back to `len` whenever it overshoots.  When `initial_len == 0` and
the loop body cannot make progress, the Rust loop spins forever
(`nonTermination`); an out-of-range `extend_from_within` would panic.  Each
productive iteration appends at least one byte, so the loop runs at most
`len + 1` times; the caller passes that as the structural fuel, and fuel can
run out only on the `initial_len == 0` path that diverges anyway. -/
def extendChunk : Nat → Nat → Nat → List Nat → Except Err (List Nat)
  | 0, _, _, _ => .error .nonTermination
  | fuel + 1, initialLen, len, chunk =>
    if chunk.length < len then
      if initialLen = 0 then .error .nonTermination
      else if chunk.length < initialLen then .error .panic
      else
        let c1 := chunk ++ chunk.take initialLen
        let c2 := if len < c1.length then c1.take len else c1
        extendChunk fuel initialLen len c2
    else .ok chunk

/-- Embedding of `TrackingWriter::write_previous` (tracking_writer.rs:54-84). -/
def TrackingWriter.writePrevious (w : TrackingWriter) (dist len : Nat) :
    Except Err TrackingWriter :=
  if w.history.length ≤ dist then .error .badBackReference
  else
    let pastBegin := w.history.length - dist
    let pastEnd :=
      if dist ≤ len then w.history.length else w.history.length - dist + len
    let chunk0 := (w.history.drop pastBegin).take (pastEnd - pastBegin)
    match extendChunk (len + 1) chunk0.length len chunk0 with
    | .error e => .error e
    | .ok chunk =>
      let res := w.write chunk
      if res.2 = len then .ok res.1 else .error .writtenLess

/-! ## `bit_reader.rs` -/

/-- `BitSequence` (bit_reader.rs:8-11).  The `bits` field mirrors the Rust
`u16` field; well-formed values keep `bits < 2 ^ len` (see `BitSequence.Wf`). -/
structure BitSequence where
  bits : Nat
  len : Nat
  deriving DecidableEq, Repr

/-- `bits < 2 ^ len`: no junk above the advertised length.  `BitSequence::new`
establishes this; `consume`'s in-place remainder update preserves it. -/
def BitSequence.Wf (s : BitSequence) : Prop := s.bits < 2 ^ s.len

instance (s : BitSequence) : Decidable s.Wf := by
  unfold BitSequence.Wf; infer_instance

/-- `BitSequence::new` (bit_reader.rs:14-20): asserts `len <= 16`, then masks
away the bits at positions `>= len` (for `len = 16` the `u16` type itself is
the mask, which `% 2 ^ 16` reproduces). -/
def BitSequence.new (bits len : Nat) : Except Err BitSequence :=
  if 16 < len then .error .panic
  else .ok ⟨bits % 2 ^ len, len⟩

/-- `BitSequence::concat` (bit_reader.rs:30-36): asserts the combined length
fits in 16; `self.bits << other.len()` panics on a shift amount of 16 and
otherwise wraps in `u16`. -/
def BitSequence.concat (a b : BitSequence) : Except Err BitSequence :=
  if 16 < b.len + a.len then .error .panic
  else if b.len = 16 then .error .panic
  else .ok ⟨(a.bits <<< b.len) % 2 ^ 16 ||| b.bits, a.len + b.len⟩

/-- `BitSequence::consume` (bit_reader.rs:38-46): asserts `self.len >= len`;
the mask `!(!0u16 << len)` (that is, `% 2 ^ len`) panics on a shift amount of
16.  Returns `(consumed, updated self)`; the in-place update
`self.bits >>= len` is `bits / 2 ^ len` with no re-masking. -/
def BitSequence.consume (s : BitSequence) (l : Nat) :
    Except Err (BitSequence × BitSequence) :=
  if s.len < l then .error .panic
  else if l = 16 then .error .panic
  else .ok (⟨s.bits % 2 ^ l, l⟩, ⟨s.bits / 2 ^ l, s.len - l⟩)

/-- `BitReader` (bit_reader.rs:51-54) over a finite byte stream. -/
structure BitReader where
  stream : List Nat
  remainder : BitSequence
  deriving DecidableEq, Repr

def BitReader.new (stream : List Nat) : BitReader := ⟨stream, ⟨0, 0⟩⟩

/-- `BitReader::read_bits` (bit_reader.rs:64-84).  `read_exact` fails with
`UnexpectedEof` when the stream holds fewer bytes than requested; a fetched
pair of bytes is assembled little-endian (`(byte[1] << 8) + byte[0]`). -/
def BitReader.readBits (r : BitReader) (len : Nat) :
    Except Err (BitSequence × BitReader) :=
  if 16 < len ∨ len = 0 then .error .panic
  else if len ≤ r.remainder.len then
    match r.remainder.consume len with
    | .error e => .error e
    | .ok (ret, rem) => .ok (ret, ⟨r.stream, rem⟩)
  else
    let toFill := len - r.remainder.len
    let nbytes := (toFill - 1) / 8 + 1
    if r.stream.length < nbytes then .error .unexpectedEof
    else
      let fetched := r.stream.take nbytes
      let bitsE :=
        if nbytes = 1 then BitSequence.new (fetched.getD 0 0) 8
        else BitSequence.new ((fetched.getD 1 0 <<< 8) + fetched.getD 0 0) 16
      match bitsE with
      | .error e => .error e
      | .ok bits =>
        match bits.consume toFill with
        | .error e => .error e
        | .ok (cons, rem) =>
          match cons.concat r.remainder with
          | .error e => .error e
          | .ok toRead => .ok (toRead, ⟨r.stream.drop nbytes, rem⟩)

/-- `BitReader::borrow_reader_from_boundary` (bit_reader.rs:88-92): asserts
the residual fits in one byte, discards it, and exposes the byte stream (the
reader keeps the emptied residual). -/
def BitReader.borrowReaderFromBoundary (r : BitReader) :
    Except Err BitReader :=
  if 8 < r.remainder.len then .error .panic
  else
    match r.remainder.consume r.remainder.len with
    | .error e => .error e
    | .ok (_, rem) => .ok ⟨r.stream, rem⟩

/-! Spec-side views of a reader: the value of the not-yet-consumed bit stream
(LSB-first: residual bits lowest, then the stream bytes little-endian), and
the total number of unread bits. -/

/-- Little-endian value of a byte list. -/
def bytesVal : List Nat → Nat
  | [] => 0
  | b :: t => b + 256 * bytesVal t

/-- The whole unread bit stream of a reader, as one LSB-first natural
number: residual bits in the low positions, then the bytes. -/
def streamVal (r : BitReader) : Nat :=
  r.remainder.bits + 2 ^ r.remainder.len * bytesVal r.stream

/-- Number of unread bits of a reader. -/
def totalBits (r : BitReader) : Nat :=
  r.remainder.len + 8 * r.stream.length

/-! Structural facts about `readBits` needed for the termination of the
symbol-reading loops. -/

theorem readBits_ok_shape (r : BitReader) (k : Nat) (b : BitSequence)
    (r' : BitReader) (h : r.readBits k = .ok (b, r')) :
    b.len = k ∧ totalBits r' + k = totalBits r := by
  unfold BitReader.readBits at h
  split at h
  · exact absurd h (by simp)
  next hk =>
    split at h
    next hrem =>
      split at h
      · exact absurd h (by simp)
      next ret rem heq =>
        unfold BitSequence.consume at heq
        split at heq; · exact absurd heq (by simp)
        split at heq; · exact absurd heq (by simp)
        simp only [Except.ok.injEq, Prod.mk.injEq] at heq h
        obtain ⟨hret, hrem2⟩ := heq
        obtain ⟨hb, hr'⟩ := h
        subst hb hr'
        rw [← hret, ← hrem2]
        simp [totalBits]
        omega
    next hrem =>
      simp only at h
      split at h
      · exact absurd h (by simp)
      next hlen =>
        split at h
        · exact absurd h (by simp)
        next bits heqbits =>
          split at h
          · exact absurd h (by simp)
          next cons rem heqcr =>
            split at h
            · exact absurd h (by simp)
            next toRead heqconc =>
              simp only [Except.ok.injEq, Prod.mk.injEq] at h
              obtain ⟨hb, hr'⟩ := h
              subst hb hr'
              have hblen : bits.len = 8 * ((k - r.remainder.len - 1) / 8 + 1) := by
                split at heqbits
                next h1 =>
                  unfold BitSequence.new at heqbits
                  split at heqbits
                  · exact absurd heqbits (by simp)
                  simp only [Except.ok.injEq] at heqbits
                  rw [← heqbits, h1]
                next h1 =>
                  have h2 : (k - r.remainder.len - 1) / 8 + 1 = 2 := by omega
                  unfold BitSequence.new at heqbits
                  split at heqbits
                  · exact absurd heqbits (by simp)
                  simp only [Except.ok.injEq] at heqbits
                  rw [← heqbits, h2]
              unfold BitSequence.consume at heqcr
              split at heqcr; · exact absurd heqcr (by simp)
              next hclen =>
              split at heqcr; · exact absurd heqcr (by simp)
              simp only [Except.ok.injEq, Prod.mk.injEq] at heqcr
              obtain ⟨hcons, hrem2⟩ := heqcr
              unfold BitSequence.concat at heqconc
              split at heqconc; · exact absurd heqconc (by simp)
              split at heqconc; · exact absurd heqconc (by simp)
              simp only [Except.ok.injEq] at heqconc
              have hconsLen : cons.len = k - r.remainder.len := by
                rw [← hcons]
              have hremLen : rem.len = bits.len - (k - r.remainder.len) := by
                rw [← hrem2]
              constructor
              · rw [← heqconc]
                show cons.len + r.remainder.len = k
                omega
              · show totalBits ⟨_, rem⟩ + k = totalBits r
                simp only [totalBits, List.length_drop]
                rw [hremLen, hblen]
                rw [hblen] at hclen
                omega

theorem readBits_len (r : BitReader) (k : Nat) (b : BitSequence)
    (r' : BitReader) (h : r.readBits k = .ok (b, r')) : b.len = k :=
  (readBits_ok_shape r k b r' h).1

theorem readBits_totalBits (r : BitReader) (k : Nat) (b : BitSequence)
    (r' : BitReader) (h : r.readBits k = .ok (b, r')) :
    totalBits r' + k = totalBits r :=
  (readBits_ok_shape r k b r' h).2

/-! ## `huffman_coding.rs` -/

/-- `TreeCodeToken` (huffman_coding.rs:94-98). -/
inductive TreeCodeToken where
  | length (n : Nat)
  | copyPrev
  | repeatZero (base : Nat) (extraBits : Nat)
  deriving DecidableEq, Repr

/-- `TreeCodeToken::try_from` (huffman_coding.rs:103-118). -/
def treeCodeTokenOfCode (v : Nat) : Except Err TreeCodeToken :=
  if v ≤ 15 then .ok (.length v)
  else if v = 16 then .ok .copyPrev
  else if v = 17 then .ok (.repeatZero 3 3)
  else if v = 18 then .ok (.repeatZero 11 7)
  else .error (.clBadCode v)

/-- `LitLenToken` (huffman_coding.rs:124-128). -/
inductive LitLenToken where
  | literal (b : Nat)
  | endOfBlock
  | length (base : Nat) (extraBits : Nat)
  deriving DecidableEq, Repr

/-- `LitLenToken::try_from` (huffman_coding.rs:133-155).  In the
`265..=284` arm, `extra_bits = (v - 265) / 4 + 1`,
`len_base = (1 << (extra_bits + 2)) + 3` and
`base = len_base + ((v - 1) % 4) * (1 << extra_bits)` (all `u16`, in range).
Indices 286 and 287 fall to the error arm ("LL bad code"). -/
def litLenTokenOfCode (v : Nat) : Except Err LitLenToken :=
  if v ≤ 255 then .ok (.literal v)
  else if v = 256 then .ok .endOfBlock
  else if v ≤ 264 then .ok (.length (v - 254) 0)
  else if v ≤ 284 then
    let extraBits := (v - 265) / 4 + 1
    let lenBase := 2 ^ (extraBits + 2) + 3
    .ok (.length (lenBase + (v - 1) % 4 * 2 ^ extraBits) extraBits)
  else if v = 285 then .ok (.length 258 0)
  else .error (.llBadCode v)

/-- `DistanceToken` (huffman_coding.rs:161-164). -/
structure DistanceToken where
  base : Nat
  extraBits : Nat
  deriving DecidableEq, Repr

/-- `DistanceToken::try_from` (huffman_coding.rs:169-185).  In the `4..=29`
arm, `extra_bits = v / 2 - 1` and
`base = (1 << (extra_bits + 1)) + (v % 2) * (1 << extra_bits) + 1`. -/
def distanceTokenOfCode (v : Nat) : Except Err DistanceToken :=
  if v ≤ 3 then .ok ⟨v + 1, 0⟩
  else if v ≤ 29 then
    let extraBits := v / 2 - 1
    .ok ⟨2 ^ (extraBits + 1) + v % 2 * 2 ^ extraBits + 1, extraBits⟩
  else .error (.dBadCode v)

/-- `HuffmanCoding<T>` (huffman_coding.rs:195-197): a `HashMap` from
`BitSequence` to `T`, modelled as the list of insertions, most recent first,
so that a later `insert` with the same key shadows an earlier one exactly as
`HashMap::insert` overwrites. -/
structure HuffmanCoding (T : Type) where
  map : List (BitSequence × T)
  deriving DecidableEq

/-- `HashMap::insert`. -/
def HuffmanCoding.insert {T} (m : HuffmanCoding T) (k : BitSequence) (v : T) :
    HuffmanCoding T :=
  ⟨(k, v) :: m.map⟩

/-- `HuffmanCoding::decode_symbol` (huffman_coding.rs:208-210): exact lookup
of the (bits, len) pair. -/
def HuffmanCoding.decodeSymbol {T} (m : HuffmanCoding T) (seq : BitSequence) :
    Option T :=
  (m.map.find? (fun p => p.1 == seq)).map Prod.snd

/-- The loop of `HuffmanCoding::read_symbol` (huffman_coding.rs:212-222):
`while bits.len() < 16`, append one freshly read bit, return on the first
exact table match; `anyhow!(":(")` (`badCode`) once 16 bits have accumulated
without a match.  The accumulator starts empty and `concat` of a 1-bit read
grows it by exactly one bit per iteration, so the guard `bits.len() < 16` is
equivalently the countdown `n = 16 - bits.len()`, which makes the recursion
structural. -/
def HuffmanCoding.readSymbolGo {T} (m : HuffmanCoding T) :
    Nat → BitSequence → BitReader → Except Err (T × BitReader)
  | 0, _, _ => .error .badCode
  | n + 1, acc, r =>
    match r.readBits 1 with
    | .error e => .error e
    | .ok (b, r1) =>
      match acc.concat b with
      | .error e => .error e
      | .ok acc' =>
        match m.decodeSymbol acc' with
        | some t => .ok (t, r1)
        | none => m.readSymbolGo n acc' r1

/-- `HuffmanCoding::read_symbol` (huffman_coding.rs:212-222). -/
def HuffmanCoding.readSymbol {T} (m : HuffmanCoding T) (r : BitReader) :
    Except Err (T × BitReader) :=
  m.readSymbolGo 16 ⟨0, 0⟩ r

/-- The `next_code` derivation of `from_lengths` (huffman_coding.rs:234-239):
`code = (code + bl_count[bits - 1] as u16) << 1; next_code[bits] = code`.
The `u16` addition panics on overflow (debug build); the `<< 1` silently
drops the high bit.  Returns the 16-entry `next_code` array. -/
def nextCodeBuild (blCount : Nat → Nat) :
    Nat → Nat → Nat → List Nat → Except Err (List Nat)
  | 0, _, _, acc => .ok acc
  | count + 1, bits, code, acc =>
    let s := code + blCount (bits - 1) % 65536
    if 65535 < s then .error .panic
    else
      let code' := s * 2 % 65536
      nextCodeBuild blCount count (bits + 1) code' (acc ++ [code'])

/-- The assignment loop of `from_lengths` (huffman_coding.rs:242-251): for
each index with a non-zero length, form the code word from `next_code`,
convert the index through `T::try_from` (an `idx as u16` cast), insert, and
increment `next_code[len]` (a `u16` increment that panics on overflow). -/
def assignCodes {T} (conv : Nat → Except Err T) :
    List (Nat × Nat) → List Nat → HuffmanCoding T →
    Except Err (HuffmanCoding T)
  | [], _, m => .ok m
  | (idx, len) :: rest, nextCode, m =>
    if len = 0 then assignCodes conv rest nextCode m
    else
      match BitSequence.new (nextCode.getD len 0) len with
      | .error e => .error e
      | .ok code =>
        match conv (idx % 65536) with
        | .error e => .error e
        | .ok tok =>
          let cur := nextCode.getD len 0
          if cur = 65535 then .error .panic
          else
            assignCodes conv rest (nextCode.set len (cur + 1)) (m.insert code tok)

/-- `HuffmanCoding::from_lengths` (huffman_coding.rs:224-254).  A length
greater than 15 panics (`bl_count[*len]` index out of bounds); `bl_count[0]`
is zeroed before the `next_code` derivation.  There is no over-subscription
check: the map is returned as built. -/
def HuffmanCoding.fromLengths {T} (conv : Nat → Except Err T)
    (codeLengths : List Nat) : Except Err (HuffmanCoding T) :=
  if codeLengths.any (fun l => 15 < l) then .error .panic
  else
    let blCount : Nat → Nat := fun b => if b = 0 then 0 else codeLengths.count b
    match nextCodeBuild blCount 15 1 0 [0] with
    | .error e => .error e
    | .ok nextCode => assignCodes conv codeLengths.enum nextCode ⟨[]⟩

/-- The literal/length half of `get_fixed_coding` (huffman_coding.rs:68-79):
for each `lit` in `0..=287`, the hardcoded fixed code word is paired with
`LitLenToken::try_from(HuffmanCodeWord(lit))?` — the `?` propagates the
conversion failure. -/
def fixedLitLenGo : List Nat → HuffmanCoding LitLenToken →
    Except Err (HuffmanCoding LitLenToken)
  | [], m => .ok m
  | lit :: rest, m =>
    let codeE :=
      if lit ≤ 143 then BitSequence.new (0b00110000 + lit) 8
      else if lit ≤ 255 then BitSequence.new (0b110010000 + lit - 144) 9
      else if lit ≤ 279 then BitSequence.new (lit - 256) 7
      else BitSequence.new (0b11000000 + lit - 280) 8
    match codeE with
    | .error e => .error e
    | .ok code =>
      match litLenTokenOfCode lit with
      | .error e => .error e
      | .ok tok => fixedLitLenGo rest (m.insert code tok)

/-- The distance half of `get_fixed_coding` (huffman_coding.rs:81-86): for
each `lit` in `0..=31`, a 5-bit code word paired with
`DistanceToken::try_from(HuffmanCodeWord(lit))?`. -/
def fixedDistGo : List Nat → HuffmanCoding DistanceToken →
    Except Err (HuffmanCoding DistanceToken)
  | [], m => .ok m
  | lit :: rest, m =>
    match BitSequence.new lit 5 with
    | .error e => .error e
    | .ok code =>
      match distanceTokenOfCode lit with
      | .error e => .error e
      | .ok tok => fixedDistGo rest (m.insert code tok)

/-- `get_fixed_coding` (huffman_coding.rs:66-89). -/
def getFixedCoding :
    Except Err (HuffmanCoding LitLenToken × HuffmanCoding DistanceToken) :=
  match fixedLitLenGo (List.range 288) ⟨[]⟩ with
  | .error e => .error e
  | .ok litlen =>
    match fixedDistGo (List.range 32) ⟨[]⟩ with
    | .error e => .error e
    | .ok dist => .ok (litlen, dist)

/-- `static TREE_CODE_ORDER` (huffman_coding.rs:24-26). -/
def TREE_CODE_ORDER : List Nat :=
  [16, 17, 18, 0, 8, 7, 9, 6, 10, 5, 11, 4, 12, 3, 13, 2, 14, 1, 15]

/-- The `for i in 0..hclen` loop of `decode_litlen_distance_trees`
(huffman_coding.rs:30-33): read a 3-bit length and store it at
`TREE_CODE_ORDER[i]`. -/
def readTreeLengths : Nat → Nat → List Nat → BitReader →
    Except Err (List Nat × BitReader)
  | 0, _, treeLen, r => .ok (treeLen, r)
  | count + 1, i, treeLen, r =>
    match r.readBits 3 with
    | .error e => .error e
    | .ok (b, r1) =>
      readTreeLengths count (i + 1)
        (treeLen.set (TREE_CODE_ORDER.getD i 0) b.bits) r1

/-- The code-length decoding loop of `decode_litlen_distance_trees`
(huffman_coding.rs:37-56).  One symbol is decoded per iteration; the loop
`break`s only when the vector length hits `target = hlit + hdist` exactly
after processing the symbol.  Every iteration consumes at least one bit from
the reader, so the caller's fuel `totalBits r + 1` can never run out; the
fuel only makes the recursion structural. -/
def clLoop (huff : HuffmanCoding TreeCodeToken) (target : Nat) :
    Nat → List Nat → BitReader → Except Err (List Nat × BitReader)
  | 0, _, _ => .error .nonTermination
  | fuel + 1, acc, r =>
    match huff.readSymbol r with
    | .error e => .error e
    | .ok (tok, r1) =>
      match tok with
      | .length n =>
        let acc' := acc ++ [n]
        if acc'.length = target then .ok (acc', r1)
        else clLoop huff target fuel acc' r1
      | .copyPrev =>
        match r1.readBits 2 with
        | .error e => .error e
        | .ok (b, r2) =>
          let numRep := b.bits + 3
          match acc.getLast? with
          | none => .error .nothingToCopy
          | some prev =>
            let acc' := acc ++ List.replicate numRep prev
            if acc'.length = target then .ok (acc', r2)
            else clLoop huff target fuel acc' r2
      | .repeatZero base extraBits =>
        match r1.readBits extraBits with
        | .error e => .error e
        | .ok (b, r2) =>
          let acc' := acc ++ List.replicate (base + b.bits) 0
          if acc'.length = target then .ok (acc', r2)
          else clLoop huff target fuel acc' r2

/-- `decode_litlen_distance_trees` (huffman_coding.rs:12-64). -/
def decodeLitlenDistanceTrees (r : BitReader) :
    Except Err ((HuffmanCoding LitLenToken × HuffmanCoding DistanceToken) ×
      BitReader) :=
  match r.readBits 5 with
  | .error e => .error e
  | .ok (b, r) =>
    let hlit := b.bits + 257
    match r.readBits 5 with
    | .error e => .error e
    | .ok (b, r) =>
      let hdist := b.bits + 1
      match r.readBits 4 with
      | .error e => .error e
      | .ok (b, r) =>
        let hclen := b.bits + 4
        if 19 < hclen then .error .hclenTooBig
        else
          match readTreeLengths hclen 0 (List.replicate 19 0) r with
          | .error e => .error e
          | .ok (treeLen, r) =>
            match HuffmanCoding.fromLengths treeCodeTokenOfCode treeLen with
            | .error e => .error e
            | .ok treeCodeHuffman =>
              match clLoop treeCodeHuffman (hlit + hdist) (totalBits r + 1) [] r with
              | .error e => .error e
              | .ok (codeLengths, r) =>
                let litLengths := codeLengths.take hlit
                let distLengths := codeLengths.drop hlit
                match HuffmanCoding.fromLengths litLenTokenOfCode litLengths with
                | .error e => .error e
                | .ok litlen =>
                  match HuffmanCoding.fromLengths distanceTokenOfCode distLengths with
                  | .error e => .error e
                  | .ok dist => .ok ((litlen, dist), r)

/-! ## `deflate.rs` -/

/-- The `if extra_bits != 0 { bit_reader.read_bits(extra_bits)?.bits() }
else { 0 }` expression of the symbol loop (deflate.rs:123-127, 131-135). -/
def readExtra (r : BitReader) (extraBits : Nat) : Except Err (Nat × BitReader) :=
  if extraBits = 0 then .ok (0, r)
  else
    match r.readBits extraBits with
    | .error e => .error e
    | .ok (b, r') => .ok (b.bits, r')

/-- The literal/length/distance symbol loop of `DeflateReader::deflate`
(deflate.rs:117-147).  `write_u8` and the short-write check disappear because
the all-accepting sink accepts every byte.  Every iteration consumes at
least one bit (the litlen symbol), so the caller's fuel `totalBits r + 1`
can never run out; the fuel only makes the recursion structural. -/
def symbolLoop (litlen : HuffmanCoding LitLenToken)
    (dist : HuffmanCoding DistanceToken) :
    Nat → TrackingWriter → BitReader → Except Err (TrackingWriter × BitReader)
  | 0, _, _ => .error .nonTermination
  | fuel + 1, w, r =>
    match litlen.readSymbol r with
    | .error e => .error e
    | .ok (.literal lit, r1) => symbolLoop litlen dist fuel (w.write [lit]).1 r1
    | .ok (.endOfBlock, r1) => .ok (w, r1)
    | .ok (.length base extraBits, r1) =>
      match readExtra r1 extraBits with
      | .error e => .error e
      | .ok (extraLen, r2) =>
        let actualLen := base + extraLen
        match dist.readSymbol r2 with
        | .error e => .error e
        | .ok (dtok, r3) =>
          match readExtra r3 dtok.extraBits with
          | .error e => .error e
          | .ok (extraDist, r4) =>
            let actualDist := dtok.base + extraDist
            match w.writePrevious actualDist actualLen with
            | .error e => .error e
            | .ok w' => symbolLoop litlen dist fuel w' r4

/-- `DeflateReader::deflate`'s block loop (deflate.rs:85-151): read the 1-bit
`BFINAL` and 2-bit `BTYPE` (`next_block`, deflate.rs:61-80), dispatch to the
stored / fixed / dynamic path, and continue until a final block was
processed.  The loop is driven by fuel; exhausting it yields
`nonTermination` (irrelevant for any sufficiently large fuel). -/
def deflateLoop : Nat → TrackingWriter → BitReader →
    Except Err (TrackingWriter × BitReader)
  | 0, _, _ => .error .nonTermination
  | fuel + 1, w, r =>
    match r.readBits 1 with
    | .error e => .error e
    | .ok (bfinal, r1) =>
      match r1.readBits 2 with
      | .error e => .error e
      | .ok (btype, r2) =>
        let isFinal := bfinal.bits = 1
        if btype.bits = 3 then .error .badBlockType
        else if btype.bits = 0 then
          match r2.borrowReaderFromBoundary with
          | .error e => .error e
          | .ok r3 =>
            match r3.stream with
            | l0 :: l1 :: n0 :: n1 :: s2 =>
              let len := l0 + 256 * l1
              let nlen := n0 + 256 * n1
              if len ≠ 65535 ^^^ nlen then .error .badStoredHeader
              else if s2.length < len then .error .unexpectedEof
              else
                let buffer := s2.take len
                let w' := (w.write buffer).1
                let r4 : BitReader := ⟨s2.drop len, r3.remainder⟩
                if isFinal then .ok (w', r4) else deflateLoop fuel w' r4
            | _ => .error .unexpectedEof
        else
          match (if btype.bits = 2 then decodeLitlenDistanceTrees r2
                 else
                   match getFixedCoding with
                   | .error e => .error e
                   | .ok p => .ok (p, r2)) with
          | .error e => .error e
          | .ok ((litlen, dist), r3) =>
            match symbolLoop litlen dist (totalBits r3 + 1) w r3 with
            | .error e => .error e
            | .ok (w', r4) =>
              if isFinal then .ok (w', r4) else deflateLoop fuel w' r4

/-- `DeflateReader::deflate` (deflate.rs:82-156): fresh `TrackingWriter`, the
block loop, then `(byte_count as u32, (crc, writer))`; the `try_into` fails
(panics through `?`) for a byte count of 2^32 or more. -/
def deflate (fuel : Nat) (r : BitReader) :
    Except Err (Nat × Nat × TrackingWriter × BitReader) :=
  match deflateLoop fuel TrackingWriter.new r with
  | .error e => .error e
  | .ok (w, r') =>
    if w.byteCount < 2 ^ 32 then
      .ok (w.byteCount, crc32Finalize w.crc, w, r')
    else .error .panic

/-! ## `gzip.rs` -/

/-- `read_u8` over a byte list. -/
def readU8 : List Nat → Except Err (Nat × List Nat)
  | [] => .error .unexpectedEof
  | b :: rest => .ok (b, rest)

/-- `read_u16::<LittleEndian>`. -/
def readU16LE : List Nat → Except Err (Nat × List Nat)
  | b0 :: b1 :: rest => .ok (b0 + 256 * b1, rest)
  | _ => .error .unexpectedEof

/-- `read_u32::<LittleEndian>`. -/
def readU32LE : List Nat → Except Err (Nat × List Nat)
  | b0 :: b1 :: b2 :: b3 :: rest =>
    .ok (b0 + 256 * b1 + 65536 * b2 + 16777216 * b3, rest)
  | _ => .error .unexpectedEof

/-- `read_exact` into a buffer of length `n`. -/
def readExactBytes (n : Nat) (s : List Nat) :
    Except Err (List Nat × List Nat) :=
  if s.length < n then .error .unexpectedEof else .ok (s.take n, s.drop n)

/-- `BufRead::read_until(0, ..)`: consume up to and including the first NUL;
at end of input, return whatever was read (no error). -/
def readUntilNul (s : List Nat) : List Nat × List Nat :=
  match s.findIdx? (· = 0) with
  | some i => (s.take (i + 1), s.drop (i + 1))
  | none => (s, [])

/-- UTF-8 validity of a byte list, as checked by Rust's
`String::from_utf8` (standard Unicode UTF-8: continuation ranges per lead
byte, no overlongs, no surrogates, max U+10FFFF). -/
def utf8Valid : List Nat → Bool
  | [] => true
  | b :: t =>
    if b < 0x80 then utf8Valid t
    else if b < 0xC2 then false
    else if b < 0xE0 then
      match t with
      | c1 :: t' =>
        if 0x80 ≤ c1 ∧ c1 < 0xC0 then utf8Valid t' else false
      | [] => false
    else if b < 0xF0 then
      match t with
      | c1 :: c2 :: t' =>
        let lo := if b = 0xE0 then 0xA0 else 0x80
        let hi := if b = 0xED then 0xA0 else 0xC0
        if lo ≤ c1 ∧ c1 < hi ∧ 0x80 ≤ c2 ∧ c2 < 0xC0 then utf8Valid t'
        else false
      | _ => false
    else if b < 0xF5 then
      match t with
      | c1 :: c2 :: c3 :: t' =>
        let lo := if b = 0xF0 then 0x90 else 0x80
        let hi := if b = 0xF4 then 0x90 else 0xC0
        if lo ≤ c1 ∧ c1 < hi ∧ 0x80 ≤ c2 ∧ c2 < 0xC0 ∧ 0x80 ≤ c3 ∧ c3 < 0xC0
        then utf8Valid t'
        else false
      | _ => false
    else false

/-- `MemberHeader` (gzip.rs:32-42); `name` and `comment` hold the raw bytes
of the Rust `String`s (which, read via `read_until`, retain the NUL). -/
structure MemberHeader where
  compressionMethod : Nat
  modificationTime : Nat
  extra : Option (List Nat)
  name : Option (List Nat)
  comment : Option (List Nat)
  extraFlags : Nat
  os : Nat
  hasCrc : Bool
  isText : Bool
  deriving DecidableEq, Repr

/-- Little-endian bytes of a `u16` value. -/
def le2 (n : Nat) : List Nat := [n % 256, n / 256 % 256]

/-- Little-endian bytes of a `u32` value. -/
def le4 (n : Nat) : List Nat :=
  [n % 256, n / 256 % 256, n / 65536 % 256, n / 16777216 % 256]

/-- `MemberHeader::flags` (gzip.rs:71-79): the flag byte reconstructed from
the parsed fields (bits 0-4 only; the reserved bits 5-7 of the original FLG
byte are lost). -/
def MemberHeader.flagsByte (h : MemberHeader) : Nat :=
  (if h.isText then 1 else 0) + (if h.hasCrc then 2 else 0) +
    (if h.extra.isSome then 4 else 0) + (if h.name.isSome then 8 else 0) +
    (if h.comment.isSome then 16 else 0)

/-- `MemberHeader::crc16` (gzip.rs:45-69): CRC-32 over the *reconstructed*
header bytes, truncated to 16 bits.  Note the `name`/`comment` byte strings
already end with the NUL that `read_until` kept, and the method appends a
further `[0]` after each. -/
def MemberHeader.crc16 (h : MemberHeader) : Nat :=
  let bytes :=
    [0x1f, 0x8b, h.compressionMethod, h.flagsByte] ++
      le4 h.modificationTime ++ [h.extraFlags, h.os] ++
      (match h.extra with
       | some e => le2 (e.length % 65536) ++ e
       | none => []) ++
      (match h.name with
       | some n => n ++ [0]
       | none => []) ++
      (match h.comment with
       | some c => c ++ [0]
       | none => [])
  crc32Finalize (crc32Update crc32Init bytes) % 65536

/-- `GzipReader::parse_header` (gzip.rs:207-274).  Returns the parsed header,
the raw FLG byte, and the unread tail of the input. -/
def parseHeader (input : List Nat) :
    Except Err (MemberHeader × Nat × List Nat) :=
  match readU8 input with
  | .error e => .error e
  | .ok (id1, s) =>
    if id1 ≠ 0x1f then .error .badMagic
    else
      match readU8 s with
      | .error e => .error e
      | .ok (id2, s) =>
        if id2 ≠ 0x8b then .error .badMagic
        else
          match readU8 s with
          | .error e => .error e
          | .ok (cm, s) =>
            if cm ≠ 8 then .error .unsupportedMethod
            else
              match readU8 s with
              | .error e => .error e
              | .ok (flg, s) =>
                match readU32LE s with
                | .error e => .error e
                | .ok (mtime, s) =>
                  match readU8 s with
                  | .error e => .error e
                  | .ok (xfl, s) =>
                    match readU8 s with
                    | .error e => .error e
                    | .ok (os, s) =>
                      parseHeaderTail flg cm mtime xfl os s
where
  /-- The optional fields: EXTRA, NAME, COMMENT, FTEXT, FHCRC. -/
  parseHeaderTail (flg cm mtime xfl os : Nat) (s : List Nat) :
      Except Err (MemberHeader × Nat × List Nat) :=
    let extraStep : Except Err (Option (List Nat) × List Nat) :=
      if flg.testBit 2 then
        match readU16LE s with
        | .error e => .error e
        | .ok (xlen, s) =>
          match readExactBytes xlen s with
          | .error e => .error e
          | .ok (extra, s) => .ok (some extra, s)
      else .ok (none, s)
    match extraStep with
    | .error e => .error e
    | .ok (extra, s) =>
      let nameStep : Except Err (Option (List Nat) × List Nat) :=
        if flg.testBit 3 then
          let (name, s) := readUntilNul s
          if utf8Valid name then .ok (some name, s) else .error .invalidUtf8
        else .ok (none, s)
      match nameStep with
      | .error e => .error e
      | .ok (name, s) =>
        let commentStep : Except Err (Option (List Nat) × List Nat) :=
          if flg.testBit 4 then
            let (comment, s) := readUntilNul s
            if utf8Valid comment then .ok (some comment, s)
            else .error .invalidUtf8
          else .ok (none, s)
        match commentStep with
        | .error e => .error e
        | .ok (comment, s) =>
          let header : MemberHeader :=
            { compressionMethod := cm
              modificationTime := mtime
              extra := extra
              name := name
              comment := comment
              extraFlags := xfl
              os := os
              hasCrc := flg.testBit 1
              isText := flg.testBit 0 }
          if flg.testBit 1 then
            match readU16LE s with
            | .error e => .error e
            | .ok (crcStored, s) =>
              if crcStored = header.crc16 then .ok (header, flg, s)
              else .error .badHeaderCrc
          else .ok (header, flg, s)

/-- `GzipReader::decompress` (gzip.rs:193-205): parse the header, run the
DEFLATE decoder over the rest of the input, then read and check the 8-byte
trailer (CRC-32, then ISIZE).  Returns the unread tail and the writer. -/
def decompress (fuel : Nat) (input : List Nat) :
    Except Err (List Nat × TrackingWriter) :=
  match parseHeader input with
  | .error e => .error e
  | .ok (_, _, rest) =>
    match deflate fuel (BitReader.new rest) with
    | .error e => .error e
    | .ok (actualSize, actualCrc, w, r') =>
      match readU32LE r'.stream with
      | .error e => .error e
      | .ok (dataCrc32, s1) =>
        match readU32LE s1 with
        | .error e => .error e
        | .ok (dataSize, s2) =>
          if dataSize ≠ actualSize then .error .lengthMismatch
          else if dataCrc32 ≠ actualCrc then .error .crcMismatch
          else .ok (s2, w)

/-! ## Claim theorems -/

/-- **C1.**  Constructing the fixed coding pair never succeeds: the
`for lit in 0..=287` loop of `get_fixed_coding` converts index 286 through
`LitLenToken::try_from`, which has no arm for 286/287 and returns
`Err("LL bad code 286")`; the `?` propagates it, so every fixed-Huffman
block (including the "aaaaa" example) fails instead of decoding. -/
theorem getFixedCoding_always_fails :
    getFixedCoding = .error (.llBadCode 286) := by decide

/-- **C2.**  `write_previous` uses the strict bound
`ensure!(dist < self.history.len())`, so a back-reference whose distance
equals the full current history length is rejected with `BadBackReference`:
after writing the single byte 0x61, `write_previous(1, 4)` (the standard
run-length back-reference, `dist = history.len() = 1`) fails, where the
claim (and RFC 1951) require it to succeed. -/
theorem writePrevious_rejects_full_history :
    ((TrackingWriter.new.write [0x61]).1).history = [0x61] ∧
    ((TrackingWriter.new.write [0x61]).1).writePrevious 1 4 =
      .error .badBackReference := by decide

/-- **C3.**  A single `write` call whose accepted length exceeds 32768
leaves *all* written bytes in `history`: the `written_len > HISTORY_SIZE`
branch clears the deque but then extends it with the whole written slice, so
the history holds `buf.length > 32768` bytes while
`min(byte_count, 32768) = 32768` — the claimed invariant
`history.length = min(byte_count, 32768)` fails right after the call. -/
theorem write_history_overflows (w : TrackingWriter) (buf : List Nat)
    (h : historySize < buf.length) :
    ((w.write buf).1).history.length = buf.length ∧
    min ((w.write buf).1).byteCount historySize <
      ((w.write buf).1).history.length := by
  unfold TrackingWriter.write
  constructor
  · simp [if_pos h]
  · simp only [if_pos h, List.nil_append]
    have hle : historySize = 32768 := rfl
    omega

/-- Witness for `write_history_overflows`: a stored block of 32769 bytes
streamed into a fresh writer. -/
theorem write_history_overflows_witness :
    ((TrackingWriter.new.write (List.replicate 32769 0)).1).history.length
        = (List.replicate 32769 (0 : Nat)).length ∧
    min ((TrackingWriter.new.write (List.replicate 32769 0)).1).byteCount
        historySize <
      ((TrackingWriter.new.write (List.replicate 32769 0)).1).history.length :=
  write_history_overflows TrackingWriter.new (List.replicate 32769 0)
    (by rw [List.length_replicate]; decide)

/-- **C5 (counterexample).**  `from_lengths` does *not* reject the
over-subscribed length vector `[1, 1, 1]`: construction succeeds. -/
theorem fromLengths_accepts_oversubscribed :
    (HuffmanCoding.fromLengths treeCodeTokenOfCode [1, 1, 1]).isOk = true := by
  decide

/-- **C5 (amended).**  `from_lengths` performs no over-subscription check:
for `[1, 1, 1]` it returns a decoder in which symbol 2's code word —
`next_code[1] = 2` masked by `BitSequence::new` to `(0, 1)` — has
overwritten symbol 0's entry, while symbol 1 keeps `(1, 1)`. -/
theorem fromLengths_oversubscribed_overwrites :
    (HuffmanCoding.fromLengths treeCodeTokenOfCode [1, 1, 1]).map
        (fun m => (m.decodeSymbol ⟨0, 1⟩, m.decodeSymbol ⟨1, 1⟩)) =
      .ok (some (.length 2), some (.length 1)) := by decide

/-- The specification's header CRC (spec §6, "Header CRC definition"): the
low 16 bits of CRC-32 over exactly the header bytes that precede the CRC
field, as they appeared in the input. -/
def rfcHeaderCrc16 (headerBytes : List Nat) : Nat :=
  crc32 headerBytes % 65536

/-- A gzip member header with FHCRC and FNAME set (FLG = 0x0A), zero MTIME,
XFL and OS, and the one-character name "a": exactly the bytes
`1f 8b 08 0a 00 00 00 00 00 00 61 00` precede the CRC field. -/
def c4Prefix : List Nat :=
  [0x1f, 0x8b, 0x08, 0x0A, 0, 0, 0, 0, 0, 0, 0x61, 0x00]

/-- The header that `parse_header` builds from `c4Prefix` (name = "a\0",
`has_crc` set before the check). -/
def c4Header : MemberHeader :=
  ⟨8, 0, none, some [0x61, 0], none, 0, 0, true, false⟩

/-- **C4.**  Header CRC verification does *not* check the low 16 bits of
CRC-32 over the header bytes as they appeared in the input: with FNAME
present, `MemberHeader::crc16` digests the name's terminating NUL twice
(the parsed `String` retains the NUL read by `read_until`, and the method
appends another `[0]`).  A header whose stored CRC field is the
specification's value is rejected with `BadHeaderCrc`, while the
double-NUL digest is accepted. -/
theorem parseHeader_rejects_rfc_fhcrc :
    parseHeader (c4Prefix ++ le2 (rfcHeaderCrc16 c4Prefix) ++ [9, 9]) =
      .error .badHeaderCrc ∧
    c4Header.crc16 ≠ rfcHeaderCrc16 c4Prefix ∧
    (parseHeader (c4Prefix ++ le2 c4Header.crc16 ++ [9, 9])).isOk = true := by
  decide

/-- **C6 (counterexample).**  A repeat token that pushes the code-length
vector past `HLIT + HDIST` does *not* make the decode fail with `BadTree`:
on this stream (`HLIT+HDIST = 258`; the code-length tree gives symbol 18 a
1-bit code; two `RepeatZero{11,7}` tokens with 127 extra append 138 zeros
each, reaching 276 ≠ 258) the loop's `== target` break never fires, the
loop keeps decoding symbols, and the decode fails later with
`UnexpectedEof` instead. -/
theorem decodeTrees_overrun_not_badtree :
    decodeLitlenDistanceTrees (BitReader.new [0, 0, 16, 248, 251, 255]) =
      .error .unexpectedEof := by decide

/-- **C6 (amended).**  The loop terminates with a full vector exactly when
its length hits `HLIT + HDIST` (part 1), and a `CopyPrev` with no previous
length fails (`ensure!(code_lengths.last().is_some(), "nothing to copy")`,
part 2); but an over-run is not detected as `BadTree` — the loop continues
and the failure surfaces later as a different error
(`decodeTrees_overrun_not_badtree`). -/
theorem clLoop_terminates_exactly :
    (∀ (huff : HuffmanCoding TreeCodeToken) (target fuel : Nat)
        (acc out : List Nat) (r r' : BitReader),
        clLoop huff target fuel acc r = .ok (out, r') →
        out.length = target) ∧
    decodeLitlenDistanceTrees (BitReader.new [0, 64, 0, 0]) =
      .error .nothingToCopy := by
  constructor
  · intro huff target fuel
    induction fuel with
    | zero =>
      intro acc out r r' h
      exact absurd h (by simp [clLoop])
    | succ n ih =>
      intro acc out r r' h
      simp only [clLoop] at h
      split at h
      · exact absurd h (by simp)
      next tok r1 heq =>
        split at h
        · -- Length token
          split at h
          next hlen =>
            simp only [Except.ok.injEq, Prod.mk.injEq] at h
            obtain ⟨ho, _⟩ := h
            rw [← ho]
            exact hlen
          · exact ih _ _ _ _ h
        · -- CopyPrev token
          split at h
          · exact absurd h (by simp)
          next b r2 heq2 =>
            split at h
            · exact absurd h (by simp)
            next prev hlast =>
              split at h
              next hlen =>
                simp only [Except.ok.injEq, Prod.mk.injEq] at h
                obtain ⟨ho, _⟩ := h
                rw [← ho]
                exact hlen
              · exact ih _ _ _ _ h
        · -- RepeatZero token
          split at h
          · exact absurd h (by simp)
          next b r2 heq2 =>
            split at h
            next hlen =>
              simp only [Except.ok.injEq, Prod.mk.injEq] at h
              obtain ⟨ho, _⟩ := h
              rw [← ho]
              exact hlen
            · exact ih _ _ _ _ h
  · decide

/-- Witness for `clLoop_terminates_exactly`: a one-symbol code-length tree
(`(0,1) ↦ Length 5`) and the single byte `0x00` make the loop stop at a
vector of exactly the target length 1. -/
theorem clLoop_terminates_exactly_witness :
    ([(5 : Nat)] : List Nat).length = 1 :=
  clLoop_terminates_exactly.1 ⟨[(⟨0, 1⟩, .length 5)]⟩ 1 9 [] [5]
    (BitReader.new [0]) ⟨[], ⟨0, 7⟩⟩ (by decide)

/-! Arithmetic helpers for splitting an LSB-first bit stream value. -/

theorem mod_shift_split (a v m n : Nat) (ha : a < 2 ^ m) :
    (a + 2 ^ m * v) % 2 ^ (m + n) = a + 2 ^ m * (v % 2 ^ n) := by
  conv_lhs =>
    rw [show v = v % 2 ^ n + 2 ^ n * (v / 2 ^ n) from (Nat.mod_add_div _ _).symm]
  rw [Nat.mul_add, ← Nat.add_assoc, ← Nat.mul_assoc, ← Nat.pow_add,
    Nat.add_mul_mod_self_left]
  apply Nat.mod_eq_of_lt
  have h1 : v % 2 ^ n < 2 ^ n := Nat.mod_lt _ (Nat.two_pow_pos n)
  have h2 : 2 ^ m * (v % 2 ^ n + 1) ≤ 2 ^ m * 2 ^ n :=
    Nat.mul_le_mul_left _ (Nat.succ_le_of_lt h1)
  rw [Nat.mul_add, Nat.mul_one] at h2
  rw [Nat.pow_add]
  omega

theorem div_shift_split (a v m n : Nat) (ha : a < 2 ^ m) :
    (a + 2 ^ m * v) / 2 ^ (m + n) = v / 2 ^ n := by
  rw [Nat.pow_add, ← Nat.div_div_eq_div_mul,
    Nat.add_mul_div_left _ _ (Nat.two_pow_pos m), Nat.div_eq_of_lt ha,
    Nat.zero_add]

/-- `borrow_reader_from_boundary` succeeds whenever the residual fits in one
byte (its assertion `remainder.len() <= 8`). -/
theorem borrowReaderFromBoundary_ok (r : BitReader)
    (h : r.remainder.len ≤ 8) :
    r.borrowReaderFromBoundary = .ok ⟨r.stream,
      ⟨r.remainder.bits / 2 ^ r.remainder.len, r.remainder.len - r.remainder.len⟩⟩ := by
  unfold BitReader.borrowReaderFromBoundary BitSequence.consume
  rw [if_neg (by omega)]
  rw [if_neg (Nat.lt_irrefl _), if_neg (by omega)]

/-- Splitting the division of an LSB-first composite: consuming `k` of the
`k + d` low bits. -/
theorem consume_arith (a V d k : Nat) (ha : a < 2 ^ (k + d)) :
    (a + 2 ^ (k + d) * V) % 2 ^ k = a % 2 ^ k ∧
    (a + 2 ^ (k + d) * V) / 2 ^ k = a / 2 ^ k + 2 ^ d * V := by
  constructor
  · rw [Nat.pow_add, Nat.mul_assoc, Nat.add_mul_mod_self_left]
  · rw [Nat.pow_add, Nat.mul_assoc,
      Nat.add_mul_div_left _ _ (Nat.two_pow_pos k)]

/-- The byte-fetch step of `read_bits`: the one or two bytes pulled by
`read_exact` hold the value `X` (little-endian), and the remaining stream
carries the value `R` with `bytesVal stream = X + 2^(8·nbytes) · R`. -/
theorem fetch_value (stream : List Nat) (tf : Nat) (bits : BitSequence)
    (hbytes : ∀ x ∈ stream, x < 256) (h1 : 1 ≤ tf) (h15 : tf ≤ 15)
    (hlen : ¬stream.length < (tf - 1) / 8 + 1)
    (heq : (if (tf - 1) / 8 + 1 = 1 then
              BitSequence.new ((stream.take ((tf - 1) / 8 + 1)).getD 0 0) 8
            else
              BitSequence.new
                ((stream.take ((tf - 1) / 8 + 1)).getD 1 0 <<< 8 +
                  (stream.take ((tf - 1) / 8 + 1)).getD 0 0) 16) = .ok bits) :
    ∃ X R, bits = ⟨X, 8 * ((tf - 1) / 8 + 1)⟩ ∧
      X < 2 ^ (8 * ((tf - 1) / 8 + 1)) ∧
      bytesVal stream = X + 2 ^ (8 * ((tf - 1) / 8 + 1)) * R ∧
      bytesVal (stream.drop ((tf - 1) / 8 + 1)) = R := by
  have hcase : (tf - 1) / 8 + 1 = 1 ∨ (tf - 1) / 8 + 1 = 2 := by omega
  rcases hcase with hc | hc <;> rw [hc] at heq hlen ⊢
  · obtain ⟨s0, rest, hstream⟩ : ∃ s0 rest, stream = s0 :: rest := by
      cases hs : stream with
      | nil => rw [hs] at hlen; simp at hlen
      | cons a t => exact ⟨a, t, rfl⟩
    have hs0 : s0 < 256 := hbytes s0 (by rw [hstream]; exact List.mem_cons_self _ _)
    subst hstream
    rw [if_pos rfl] at heq
    unfold BitSequence.new at heq
    rw [if_neg (by omega)] at heq
    simp only [List.take_cons, List.take_zero, List.getD, List.get?,
      Option.getD_some, Except.ok.injEq] at heq
    refine ⟨s0, bytesVal rest, ?_, ?_, ?_, rfl⟩
    · rw [← heq]
      norm_num
      omega
    · norm_num
      omega
    · show bytesVal (s0 :: rest) = s0 + 2 ^ (8 * 1) * bytesVal rest
      simp only [bytesVal]
      norm_num
  · obtain ⟨s0, s1, rest, hstream⟩ : ∃ s0 s1 rest, stream = s0 :: s1 :: rest := by
      cases hs : stream with
      | nil => rw [hs] at hlen; simp at hlen
      | cons a t =>
        cases ht : t with
        | nil => rw [hs, ht] at hlen; simp at hlen
        | cons a2 t2 => exact ⟨a, a2, t2, rfl⟩
    have hs0 : s0 < 256 := hbytes s0 (by rw [hstream]; exact List.mem_cons_self _ _)
    have hs1 : s1 < 256 := hbytes s1 (by
      rw [hstream]; exact List.mem_cons_of_mem _ (List.mem_cons_self _ _))
    subst hstream
    rw [if_neg (by omega)] at heq
    unfold BitSequence.new at heq
    rw [if_neg (by omega)] at heq
    simp only [List.take_cons, List.take_zero, List.getD, List.get?,
      Option.getD_some, Except.ok.injEq] at heq
    refine ⟨s1 <<< 8 + s0, bytesVal rest, ?_, ?_, ?_, rfl⟩
    · rw [← heq, Nat.shiftLeft_eq]
      norm_num
      omega
    · rw [Nat.shiftLeft_eq]
      norm_num
      omega
    · show bytesVal (s0 :: s1 :: rest)
          = s1 <<< 8 + s0 + 2 ^ (8 * 2) * bytesVal rest
      simp only [bytesVal]
      rw [Nat.shiftLeft_eq]
      norm_num
      ring
/-- **C9.**  For a reader at rest (residual of length 0..7, no junk above
it, byte values < 256) and any `1 ≤ k ≤ 16`, a *successful* `read_bits(k)`
returns a `BitSequence` of length exactly `k` whose value is the low `k`
bits of the LSB-first stream value (bits read earlier occupy the lower
positions: `b.bits = streamVal r % 2^k`), consumes exactly those `k` bits
(`streamVal r' = streamVal r / 2^k`), and leaves a junk-free residual of
length in `[0, 7]`, so `borrow_reader_from_boundary`'s assertion
(`remainder.len() <= 8`) holds and the borrow succeeds.  (The one failing
point in this range is `k = 16` on an empty residual, where `consume(16)`
panics on the shift `!0u16 << 16`; that call does not return successfully,
so it is outside this statement's "successful" hypothesis.) -/
theorem readBits_spec (r : BitReader) (k : Nat) (b : BitSequence)
    (r' : BitReader) (hwf : r.remainder.Wf) (hrem : r.remainder.len ≤ 7)
    (hbytes : ∀ x ∈ r.stream, x < 256) (hk1 : 1 ≤ k) (hk : k ≤ 16)
    (hok : r.readBits k = .ok (b, r')) :
    b.len = k ∧
    b.bits = streamVal r % 2 ^ k ∧
    streamVal r' = streamVal r / 2 ^ k ∧
    r'.remainder.len ≤ 7 ∧
    r'.remainder.Wf ∧
    ∃ r'', r'.borrowReaderFromBoundary = .ok r'' := by
  have hwf' := hwf
  unfold BitSequence.Wf at hwf'
  unfold BitReader.readBits at hok
  rw [if_neg (by omega)] at hok
  split at hok
  case isTrue hrem2 =>
    unfold BitSequence.consume at hok
    rw [if_neg (by omega), if_neg (by omega)] at hok
    simp only [Except.ok.injEq, Prod.mk.injEq] at hok
    obtain ⟨hb, hr'⟩ := hok
    subst hr'
    obtain ⟨d, hd⟩ : ∃ d, r.remainder.len = k + d := ⟨r.remainder.len - k, by omega⟩
    rw [hd] at hwf'
    obtain ⟨hmod, hdiv⟩ := consume_arith r.remainder.bits (bytesVal r.stream) d k hwf'
    refine ⟨by rw [← hb], ?_, ?_, ?_, ?_, ?_⟩
    · rw [← hb]
      show r.remainder.bits % 2 ^ k = streamVal r % 2 ^ k
      unfold streamVal
      rw [hd, hmod]
    · show r.remainder.bits / 2 ^ k + 2 ^ (r.remainder.len - k) * bytesVal r.stream
          = streamVal r / 2 ^ k
      unfold streamVal
      rw [hd, hdiv, Nat.add_sub_cancel_left]
    · show r.remainder.len - k ≤ 7
      omega
    · show BitSequence.Wf ⟨r.remainder.bits / 2 ^ k, r.remainder.len - k⟩
      unfold BitSequence.Wf
      show r.remainder.bits / 2 ^ k < 2 ^ (r.remainder.len - k)
      rw [Nat.div_lt_iff_lt_mul (Nat.two_pow_pos k), ← Nat.pow_add]
      rw [show r.remainder.len - k + k = r.remainder.len by omega, hd]
      exact hwf'
    · exact ⟨_, borrowReaderFromBoundary_ok _
        (show r.remainder.len - k ≤ 8 by omega)⟩
  case isFalse hrem2 =>
    simp only at hok
    split at hok
    · exact absurd hok (by simp)
    next hlen =>
      split at hok
      · exact absurd hok (by simp)
      next bits heqbits =>
        split at hok
        · exact absurd hok (by simp)
        next cons rem heqcr =>
          split at hok
          · exact absurd hok (by simp)
          next toRead heqconc =>
            simp only [Except.ok.injEq, Prod.mk.injEq] at hok
            obtain ⟨hb, hr'⟩ := hok
            subst hr'
            have htf1 : 1 ≤ k - r.remainder.len := by omega
            obtain ⟨X, R, hbits, hX, hV, hR⟩ :=
              fetch_value r.stream (k - r.remainder.len) bits hbytes htf1
                (by
                  -- `consume` must not have panicked, so `toFill ≠ 16`
                  by_contra h16
                  have : k - r.remainder.len = 16 := by omega
                  rw [this] at heqcr
                  unfold BitSequence.consume at heqcr
                  split at heqcr
                  · exact absurd heqcr (by simp)
                  · rw [if_pos rfl] at heqcr
                    exact absurd heqcr (by simp))
                hlen heqbits
            unfold BitSequence.consume at heqcr
            split at heqcr
            · exact absurd heqcr (by simp)
            next hclen =>
              split at heqcr
              · exact absurd heqcr (by simp)
              next htf16 =>
                simp only [Except.ok.injEq, Prod.mk.injEq] at heqcr
                obtain ⟨hcons, hrem'⟩ := heqcr
                rw [hbits] at hclen hrem'
                simp only at hclen hrem'
                have htfle : k - r.remainder.len ≤ 8 * ((k - r.remainder.len - 1) / 8 + 1) := by
                  omega
                have hnbtf : 8 * ((k - r.remainder.len - 1) / 8 + 1) - (k - r.remainder.len) ≤ 7 := by
                  omega
                unfold BitSequence.concat at heqconc
                rw [if_neg (by rw [← hcons]; show ¬(16 < r.remainder.len + (k - r.remainder.len)); omega),
                  if_neg (show ¬r.remainder.len = 16 by omega)] at heqconc
                rw [← hcons, hbits] at heqconc
                simp only [Except.ok.injEq] at heqconc
                have hXtf : X % 2 ^ (k - r.remainder.len) < 2 ^ (k - r.remainder.len) :=
                  Nat.mod_lt _ (Nat.two_pow_pos _)
                have hlt16 : X % 2 ^ (k - r.remainder.len) * 2 ^ r.remainder.len
                    < 2 ^ 16 :=
                  calc X % 2 ^ (k - r.remainder.len) * 2 ^ r.remainder.len
                      < 2 ^ (k - r.remainder.len) * 2 ^ r.remainder.len :=
                        (Nat.mul_lt_mul_right (Nat.two_pow_pos _)).mpr hXtf
                    _ = 2 ^ (k - r.remainder.len + r.remainder.len) :=
                        (Nat.pow_add 2 _ _).symm
                    _ ≤ 2 ^ 16 := Nat.pow_le_pow_right (by omega) (by omega)
                have hshift : (X % 2 ^ (k - r.remainder.len)) <<< r.remainder.len % 2 ^ 16
                    = 2 ^ r.remainder.len * (X % 2 ^ (k - r.remainder.len)) := by
                  rw [Nat.shiftLeft_eq, Nat.mod_eq_of_lt hlt16, Nat.mul_comm]
                have hor : 2 ^ r.remainder.len * (X % 2 ^ (k - r.remainder.len)) ||| r.remainder.bits
                    = r.remainder.bits + 2 ^ r.remainder.len * (X % 2 ^ (k - r.remainder.len)) := by
                  rw [← Nat.mul_add_lt_is_or hwf' _]
                  omega
                have hkrl : k = r.remainder.len + (k - r.remainder.len) := by omega
                refine ⟨?_, ?_, ?_, ?_, ?_, ?_⟩
                · rw [← hb, ← heqconc]
                  show k - r.remainder.len + r.remainder.len = k
                  omega
                · rw [← hb, ← heqconc]
                  show (X % 2 ^ (k - r.remainder.len)) <<< r.remainder.len % 2 ^ 16
                      ||| r.remainder.bits = streamVal r % 2 ^ k
                  rw [hshift, hor]
                  unfold streamVal
                  rw [hV]
                  rw [show (2 : Nat) ^ k
                      = 2 ^ (r.remainder.len + (k - r.remainder.len)) from by
                    rw [← hkrl]]
                  rw [mod_shift_split _ _ _ _ hwf']
                  rw [show 8 * ((k - r.remainder.len - 1) / 8 + 1)
                      = (k - r.remainder.len) +
                        (8 * ((k - r.remainder.len - 1) / 8 + 1) - (k - r.remainder.len))
                      from by omega, Nat.pow_add, Nat.mul_assoc,
                    Nat.add_mul_mod_self_left]
                · show streamVal ⟨r.stream.drop ((k - r.remainder.len - 1) / 8 + 1), rem⟩
                      = streamVal r / 2 ^ k
                  unfold streamVal
                  simp only [hR, ← hrem']
                  rw [hV]
                  rw [show (2 : Nat) ^ k
                      = 2 ^ (r.remainder.len + (k - r.remainder.len)) from by
                    rw [← hkrl]]
                  rw [div_shift_split _ _ _ _ hwf']
                  rw [show 8 * ((k - r.remainder.len - 1) / 8 + 1)
                      = (k - r.remainder.len) +
                        (8 * ((k - r.remainder.len - 1) / 8 + 1) - (k - r.remainder.len))
                      from by omega, Nat.pow_add, Nat.mul_assoc,
                    Nat.add_mul_div_left _ _ (Nat.two_pow_pos _), Nat.add_sub_cancel_left]
                · show rem.len ≤ 7
                  rw [← hrem']
                  exact hnbtf
                · show rem.Wf
                  rw [← hrem']
                  unfold BitSequence.Wf
                  show X / 2 ^ (k - r.remainder.len)
                      < 2 ^ (8 * ((k - r.remainder.len - 1) / 8 + 1) - (k - r.remainder.len))
                  rw [Nat.div_lt_iff_lt_mul (Nat.two_pow_pos _), ← Nat.pow_add]
                  rw [show 8 * ((k - r.remainder.len - 1) / 8 + 1) - (k - r.remainder.len)
                      + (k - r.remainder.len) = 8 * ((k - r.remainder.len - 1) / 8 + 1)
                      from by omega]
                  exact hX
                · refine ⟨_, borrowReaderFromBoundary_ok _ ?_⟩
                  show rem.len ≤ 8
                  rw [← hrem']
                  show 8 * ((k - r.remainder.len - 1) / 8 + 1) - (k - r.remainder.len) ≤ 8
                  omega
/-- Witness for `readBits_spec`: reading 3 bits of the single byte
`0b01100011` returns `(0b011, 3)` and leaves a 5-bit residual. -/
theorem readBits_spec_witness :
    (⟨3, 3⟩ : BitSequence).len = 3 ∧
    (⟨3, 3⟩ : BitSequence).bits = streamVal (BitReader.new [99]) % 2 ^ 3 ∧
    streamVal ⟨[], ⟨12, 5⟩⟩ = streamVal (BitReader.new [99]) / 2 ^ 3 ∧
    (⟨[], ⟨12, 5⟩⟩ : BitReader).remainder.len ≤ 7 ∧
    (⟨[], ⟨12, 5⟩⟩ : BitReader).remainder.Wf ∧
    ∃ r'', (⟨[], ⟨12, 5⟩⟩ : BitReader).borrowReaderFromBoundary = .ok r'' :=
  readBits_spec (BitReader.new [99]) 3 ⟨3, 3⟩ ⟨[], ⟨12, 5⟩⟩
    (by decide) (by decide) (by decide) (by decide) (by decide) (by decide)

/-! ## C7: `write_previous` emits the serial byte-by-byte copy -/

/-- The claim's reference semantics: a serial byte-by-byte copy with live
history.  Output byte `l` is `(hist ++ output-so-far).getD (hist.length - dist + l)`:
positions below the original tail read the history, positions at or past it
read bytes emitted earlier in the same call. -/
def serialCopy (hist : List Nat) (dist : Nat) : Nat → List Nat
  | 0 => []
  | l + 1 =>
    let prev := serialCopy hist dist l
    prev ++ [(hist ++ prev).getD (hist.length - dist + l) 0]

/-- The cyclic view of a back-reference: byte `i` is `t[i % t.length]` where
`t` is the `dist`-byte tail of the history. -/
def cycleTake (t : List Nat) (n : Nat) : List Nat :=
  (List.range n).map (fun i => t.getD (i % t.length) 0)

theorem cycleTake_length (t : List Nat) (n : Nat) :
    (cycleTake t n).length = n := by
  unfold cycleTake
  rw [List.length_map, List.length_range]

theorem cycleTake_get? (t : List Nat) (n i : Nat) :
    (cycleTake t n).get? i =
      if i < n then some (t.getD (i % t.length) 0) else none := by
  unfold cycleTake
  rw [List.get?_map]
  by_cases h : i < n
  · rw [if_pos h, List.get?_eq_getElem?, List.getElem?_range h]
    rfl
  · rw [if_neg h, List.get?_eq_none.mpr, Option.map_none']
    rw [List.length_range]
    omega

theorem cycleTake_succ (t : List Nat) (n : Nat) :
    cycleTake t (n + 1) = cycleTake t n ++ [t.getD (n % t.length) 0] := by
  unfold cycleTake
  rw [List.range_succ, List.map_append]
  rfl

theorem cycleTake_take (t : List Nat) (n k : Nat) (h : k ≤ n) :
    (cycleTake t n).take k = cycleTake t k := by
  apply List.ext_get?
  intro i
  by_cases hi : i < k
  · rw [List.get?_take hi, cycleTake_get?, cycleTake_get?,
      if_pos hi, if_pos (by omega)]
  · rw [List.get?_eq_none.mpr, cycleTake_get?, if_neg hi]
    rw [List.length_take, cycleTake_length]
    omega

theorem cycleTake_of_le (t : List Nat) (k : Nat) (h : k ≤ t.length) :
    cycleTake t k = t.take k := by
  apply List.ext_get?
  intro i
  rw [cycleTake_get?]
  by_cases hi : i < k
  · rw [if_pos hi, List.get?_take hi, Nat.mod_eq_of_lt (by omega),
      List.getD_eq_get?]
    cases hg : t.get? i with
    | none =>
      rw [List.get?_eq_none] at hg
      omega
    | some v => rfl
  · rw [if_neg hi, Eq.comm, List.get?_eq_none]
    rw [List.length_take]
    omega

theorem cycleTake_self (t : List Nat) : cycleTake t t.length = t := by
  rw [cycleTake_of_le t t.length (Nat.le_refl _), List.take_length]

theorem cycleTake_append (t : List Nat) (d m : Nat) (ht : t.length = d)
    (hd : 1 ≤ d) (hdvd : d ∣ m) :
    cycleTake t (m + d) = cycleTake t m ++ t := by
  apply List.ext_get?
  intro i
  by_cases hi : i < m
  · rw [List.get?_append (by rw [cycleTake_length]; omega),
      cycleTake_get?, cycleTake_get?, if_pos hi, if_pos (by omega)]
  · rw [List.get?_append_right (by rw [cycleTake_length]; omega),
      cycleTake_length, cycleTake_get?]
    by_cases hi2 : i < m + d
    · rw [if_pos hi2]
      have hmod : i % t.length = i - m := by
        rw [ht]
        obtain ⟨q, hq⟩ := hdvd
        subst hq
        conv_lhs => rw [show i = i - d * q + d * q from by omega]
        rw [Nat.add_mul_mod_self_left, Nat.mod_eq_of_lt (by omega)]
      rw [hmod, List.getD_eq_get?]
      cases hg : t.get? (i - m) with
      | none =>
        rw [List.get?_eq_none] at hg
        omega
      | some v => rfl
    · rw [if_neg hi2, Eq.comm, List.get?_eq_none]
      omega

/-- The serial copy equals the cyclic copy from the `dist`-byte tail. -/
theorem serialCopy_eq_cycleTake (hist : List Nat) (d : Nat) (hd : 1 ≤ d)
    (hdH : d ≤ hist.length) (l : Nat) :
    serialCopy hist d l = cycleTake (hist.drop (hist.length - d)) l := by
  have htl : (hist.drop (hist.length - d)).length = d := by
    rw [List.length_drop]
    omega
  induction l with
  | zero => rfl
  | succ l ih =>
    unfold serialCopy
    simp only
    rw [ih, cycleTake_succ]
    congr 1
    rw [htl]
    by_cases hld : l < d
    · rw [List.getD_eq_get?, List.getD_eq_get?,
        List.get?_append (show hist.length - d + l < hist.length by omega),
        Nat.mod_eq_of_lt hld, List.get?_drop,
        show hist.length - d + l = hist.length - d + l from rfl]
    · rw [List.getD_eq_get?,
        List.get?_append_right
          (show hist.length ≤ hist.length - d + l by omega),
        show hist.length - d + l - hist.length = l - d by omega,
        cycleTake_get?, if_pos (show l - d < l by omega), htl,
        show (l - d) % d = l % d from by
          conv_rhs => rw [show l = l - d + d from by omega]
          rw [Nat.add_mod_right],
        Option.getD_some]

/-- The `extend_from_within` loop turns the cyclic seed `cycleTake t m`
(with `d ∣ m`, `d ≤ m`) into the cyclic copy of the requested length. -/
theorem extendChunk_cycle (t : List Nat) (d l : Nat) (hd : 1 ≤ d)
    (ht : t.length = d) :
    ∀ fuel m, d ∣ m → d ≤ m → l - m < fuel →
      extendChunk fuel d l (cycleTake t m) = .ok (cycleTake t (max m l)) := by
  intro fuel
  induction fuel with
  | zero => intro m _ _ h; omega
  | succ fuel ih =>
    intro m hdvd hdm hfuel
    unfold extendChunk
    rw [cycleTake_length]
    by_cases hml : m < l
    · rw [if_pos hml, if_neg (by omega), if_neg (by omega)]
      have htake : (cycleTake t m).take d = t := by
        rw [cycleTake_take t m d hdm, cycleTake_of_le t d (by omega),
          ← ht, List.take_length]
      simp only [htake, ← cycleTake_append t d m ht hd hdvd, cycleTake_length]
      by_cases hover : l < m + d
      · rw [if_pos hover, cycleTake_take t (m + d) l (by omega)]
        have hmax : max m l = l := by omega
        rw [hmax]
        -- one more unfolding step: the chunk now has exactly length `l`
        cases fuel with
        | zero => omega
        | succ fuel2 =>
          unfold extendChunk
          rw [cycleTake_length, if_neg (by omega)]
      · rw [if_neg hover]
        rw [ih (m + d) (Nat.dvd_add hdvd (Nat.dvd_refl d)) (by omega)
          (by omega)]
        rw [show max (m + d) l = max m l from by omega]
    · rw [if_neg hml]
      have hmax : max m l = m := by omega
      rw [hmax]
/-- **C7.**  For every accepted back-reference (`dist ≥ 1` and the call
returned `Ok`), `write_previous(dist, len)` emits through the normal write
path exactly the bytes of the serial byte-by-byte copy with live history:
the sink receives `serialCopy w.history dist len`, and the CRC-32 digest and
byte counter are updated over precisely those bytes. -/
theorem writePrevious_emits_serial (w : TrackingWriter) (d l : Nat)
    (w' : TrackingWriter) (hd : 1 ≤ d)
    (hok : w.writePrevious d l = .ok w') :
    w'.inner = w.inner ++ serialCopy w.history d l ∧
    w'.byteCount = w.byteCount + l ∧
    w'.crc = crc32Update w.crc (serialCopy w.history d l) := by
  unfold TrackingWriter.writePrevious at hok
  split at hok
  · exact absurd hok (by simp)
  next hdl =>
    have hdH : d < w.history.length := by omega
    have htl : (w.history.drop (w.history.length - d)).length = d := by
      rw [List.length_drop]
      omega
    have hser : serialCopy w.history d l
        = cycleTake (w.history.drop (w.history.length - d)) l :=
      serialCopy_eq_cycleTake w.history d hd (by omega) l
    have hchunk : ∀ fuel2, extendChunk (l + 1)
        ((List.take ((if d ≤ l then w.history.length
            else w.history.length - d + l) - (w.history.length - d))
          (w.history.drop (w.history.length - d))).length) l
        (List.take ((if d ≤ l then w.history.length
            else w.history.length - d + l) - (w.history.length - d))
          (w.history.drop (w.history.length - d))) = fuel2 → fuel2 =
        .ok (cycleTake (w.history.drop (w.history.length - d)) l) := by
      intro fuel2 hf
      by_cases hcase : d ≤ l
      · rw [if_pos hcase,
          show w.history.length - (w.history.length - d) = d from by omega]
          at hf
        have hch : List.take d (w.history.drop (w.history.length - d))
            = w.history.drop (w.history.length - d) :=
          List.take_of_length_le (le_of_eq htl)
        rw [hch, htl] at hf
        have hcyc : cycleTake (w.history.drop (w.history.length - d)) d
            = w.history.drop (w.history.length - d) := by
          rw [cycleTake_of_le _ _ (by omega), hch]
        rw [show w.history.drop (w.history.length - d)
            = cycleTake (w.history.drop (w.history.length - d)) d
            from hcyc.symm] at hf
        rw [extendChunk_cycle _ d l hd htl (l + 1) d (Nat.dvd_refl d)
          (Nat.le_refl d) (by omega)] at hf
        rw [← hf, show max d l = l from by omega]
      · rw [if_neg hcase,
          show w.history.length - d + l - (w.history.length - d) = l
            from by omega] at hf
        have hch : List.take l (w.history.drop (w.history.length - d))
            = cycleTake (w.history.drop (w.history.length - d)) l := by
          rw [cycleTake_of_le _ _ (by omega)]
        rw [hch, cycleTake_length] at hf
        unfold extendChunk at hf
        rw [cycleTake_length, if_neg (by omega)] at hf
        rw [← hf]
    simp only at hok
    split at hok
    · exact absurd hok (by simp)
    next chunk heq =>
      have hchunkEq := hchunk _ heq
      simp only [Except.ok.injEq] at hchunkEq
      subst hchunkEq
      split at hok
      next hlen2 =>
        simp only [Except.ok.injEq] at hok
        subst hok
        refine ⟨?_, ?_, ?_⟩
        · rw [hser]
          rfl
        · show w.byteCount +
              (cycleTake (w.history.drop (w.history.length - d)) l).length
              = w.byteCount + l
          rw [cycleTake_length]
        · rw [hser]
          rfl
      next hlen2 => exact absurd hok (by simp)
/-- Witness for `writePrevious_emits_serial`: after writing `[1, 2, 3]`,
the self-overlapping back-reference `dist = 2`, `len = 5` emits
`[2, 3, 2, 3, 2]`. -/
theorem writePrevious_emits_serial_witness :
    (⟨[1, 2, 3, 2, 3, 2, 3, 2], [1, 2, 3, 2, 3, 2, 3, 2], 8, 3920517504⟩ :
        TrackingWriter).inner =
      (TrackingWriter.new.write [1, 2, 3]).1.inner ++
        serialCopy (TrackingWriter.new.write [1, 2, 3]).1.history 2 5 ∧
    (⟨[1, 2, 3, 2, 3, 2, 3, 2], [1, 2, 3, 2, 3, 2, 3, 2], 8, 3920517504⟩ :
        TrackingWriter).byteCount =
      (TrackingWriter.new.write [1, 2, 3]).1.byteCount + 5 ∧
    (⟨[1, 2, 3, 2, 3, 2, 3, 2], [1, 2, 3, 2, 3, 2, 3, 2], 8, 3920517504⟩ :
        TrackingWriter).crc =
      crc32Update (TrackingWriter.new.write [1, 2, 3]).1.crc
        (serialCopy (TrackingWriter.new.write [1, 2, 3]).1.history 2 5) :=
  writePrevious_emits_serial (TrackingWriter.new.write [1, 2, 3]).1 2 5
    ⟨[1, 2, 3, 2, 3, 2, 3, 2], [1, 2, 3, 2, 3, 2, 3, 2], 8, 3920517504⟩
    (by decide) (by decide)
/-! ## C8: `read_symbol` reads bit by bit and matches (bits, len) exactly -/

/-- The live bits of a `BitSequence` residual, LSB-first. -/
def remBits (s : BitSequence) : List Nat :=
  (List.range s.len).map (fun i => s.bits / 2 ^ i % 2)

/-- All bits of a byte stream, LSB-first within each byte. -/
def streamBits : List Nat → List Nat
  | [] => []
  | b :: t => remBits ⟨b, 8⟩ ++ streamBits t

/-- The unread bit stream of a reader: residual bits first, then the bytes. -/
def bitsOf (r : BitReader) : List Nat :=
  remBits r.remainder ++ streamBits r.stream

/-- MSB-first accumulation of a code word from a bit list, continuing from
`acc` — exactly how `read_symbol`'s `bits.concat(one_bit)` grows its
accumulator. -/
def codeAcc (acc : BitSequence) (bs : List Nat) : BitSequence :=
  ⟨bs.foldl (fun a b => 2 * a + b) acc.bits, acc.len + bs.length⟩

theorem remBits_lt (s : BitSequence) : ∀ x ∈ remBits s, x < 2 := by
  intro x hx
  unfold remBits at hx
  obtain ⟨i, _, hi⟩ := List.mem_map.mp hx
  rw [← hi]
  exact Nat.mod_lt _ (by omega)

theorem streamBits_lt (l : List Nat) : ∀ x ∈ streamBits l, x < 2 := by
  induction l with
  | nil => intro x hx; exact absurd hx (by simp [streamBits])
  | cons b t ih =>
    intro x hx
    unfold streamBits at hx
    rcases List.mem_append.mp hx with h | h
    · exact remBits_lt _ x h
    · exact ih x h

theorem bitsOf_lt (r : BitReader) : ∀ x ∈ bitsOf r, x < 2 := by
  intro x hx
  rcases List.mem_append.mp hx with h | h
  · exact remBits_lt _ x h
  · exact streamBits_lt _ x h

theorem remBits_succ (bits m : Nat) :
    remBits ⟨bits, m + 1⟩
      = bits % 2 :: (List.range m).map (fun i => bits / 2 ^ (i + 1) % 2) := by
  unfold remBits
  rw [List.range_succ_eq_map, List.map_cons, List.map_map]
  simp only [Nat.pow_zero, Nat.div_one]
  rfl

theorem remBits_half (bits m : Nat) :
    remBits ⟨bits / 2, m⟩
      = (List.range m).map (fun i => bits / 2 ^ (i + 1) % 2) := by
  unfold remBits
  apply List.map_congr_left
  intro i _
  simp only
  rw [Nat.div_div_eq_div_mul, Nat.pow_succ, Nat.mul_comm (2 ^ i) 2]

theorem codeAcc_cons (acc : BitSequence) (b : Nat) (l : List Nat) :
    codeAcc acc (b :: l)
      = codeAcc ⟨2 * acc.bits + b, acc.len + 1⟩ l := by
  unfold codeAcc
  simp only [List.foldl_cons, List.length_cons]
  congr 1
  omega

/-- One `read_bits(1)` call, related to the LSB-first bit stream: it fails
with `UnexpectedEof` exactly on an empty bit stream and otherwise delivers
the head bit, leaving the tail. -/
theorem readBits_one_bit (r : BitReader) (hwf : r.remainder.Wf)
    (hbytes : ∀ x ∈ r.stream, x < 256) :
    (bitsOf r = [] ∧ r.readBits 1 = .error .unexpectedEof) ∨
    (∃ bo rest r1, bitsOf r = bo :: rest ∧ r.readBits 1 = .ok (⟨bo, 1⟩, r1) ∧
      bitsOf r1 = rest ∧ r1.remainder.Wf ∧ (∀ x ∈ r1.stream, x < 256) ∧
      bo < 2) := by
  have hwf' := hwf
  unfold BitSequence.Wf at hwf'
  by_cases hlen : 1 ≤ r.remainder.len
  · right
    obtain ⟨m, hm⟩ : ∃ m, r.remainder.len = m + 1 :=
      ⟨r.remainder.len - 1, by omega⟩
    refine ⟨r.remainder.bits % 2,
      (List.range m).map (fun i => r.remainder.bits / 2 ^ (i + 1) % 2)
        ++ streamBits r.stream,
      ⟨r.stream, ⟨r.remainder.bits / 2, m⟩⟩, ?_, ?_, ?_, ?_, hbytes, ?_⟩
    · unfold bitsOf
      rw [show r.remainder = ⟨r.remainder.bits, r.remainder.len⟩ from rfl, hm,
        remBits_succ, List.cons_append]
    · unfold BitReader.readBits
      rw [if_neg (by omega), if_pos (by omega)]
      unfold BitSequence.consume
      rw [if_neg (by omega), if_neg (by omega)]
      rw [show (2 : Nat) ^ 1 = 2 from rfl]
      rw [hm]
      simp only [Nat.add_sub_cancel]
    · unfold bitsOf
      rw [show (⟨r.stream, ⟨r.remainder.bits / 2, m⟩⟩ : BitReader).remainder
          = ⟨r.remainder.bits / 2, m⟩ from rfl, remBits_half]
    · unfold BitSequence.Wf
      show r.remainder.bits / 2 < 2 ^ m
      rw [Nat.div_lt_iff_lt_mul (by omega)]
      rw [hm] at hwf'
      rw [Nat.pow_succ] at hwf'
      exact hwf'
    · exact Nat.mod_lt _ (by omega)
  · -- remainder empty (and junk-free, so its bits are 0)
    have hlen0 : r.remainder.len = 0 := by omega
    have hbits0 : r.remainder.bits = 0 := by
      rw [hlen0] at hwf'
      omega
    have hremlit : r.remainder = ⟨0, 0⟩ := by
      rw [show r.remainder = ⟨r.remainder.bits, r.remainder.len⟩ from rfl,
        hbits0, hlen0]
    have hrb : remBits r.remainder = [] := by
      unfold remBits
      rw [hlen0]
      rfl
    cases hs : r.stream with
    | nil =>
      left
      constructor
      · unfold bitsOf
        rw [hrb, hs]
        rfl
      · unfold BitReader.readBits
        rw [if_neg (by omega), if_neg (by omega)]
        simp only [hlen0, hs]
        rw [if_pos (by simp)]
    | cons s0 rest =>
      right
      have hs0 : s0 < 256 := hbytes s0 (by rw [hs]; exact List.mem_cons_self _ _)
      refine ⟨s0 % 2,
        (List.range 7).map (fun i => s0 / 2 ^ (i + 1) % 2) ++ streamBits rest,
        ⟨rest, ⟨s0 / 2, 7⟩⟩, ?_, ?_, ?_, ?_, ?_, ?_⟩
      · unfold bitsOf
        rw [hrb, hs, List.nil_append, streamBits,
          show (8 : Nat) = 7 + 1 from rfl, remBits_succ, List.cons_append]
      · unfold BitReader.readBits
        rw [if_neg (by omega), if_neg (by omega)]
        simp only [hlen0, hs]
        norm_num
        simp only [hremlit,
          show BitSequence.new s0 8 = .ok ⟨s0, 8⟩ from by
            unfold BitSequence.new
            rw [if_neg (by norm_num),
              Nat.mod_eq_of_lt (lt_of_lt_of_le hs0 (by norm_num))],
          show BitSequence.consume ⟨s0, 8⟩ 1
              = .ok (⟨s0 % 2, 1⟩, ⟨s0 / 2, 7⟩) from by
            unfold BitSequence.consume
            rw [if_neg (by norm_num), if_neg (by norm_num)]
            norm_num,
          show BitSequence.concat ⟨s0 % 2, 1⟩ ⟨0, 0⟩ = .ok ⟨s0 % 2, 1⟩ from by
            unfold BitSequence.concat
            rw [if_neg (by norm_num), if_neg (by norm_num)]
            rw [Nat.shiftLeft_eq, Nat.pow_zero, Nat.mul_one, Nat.or_zero,
              Nat.mod_eq_of_lt
                (lt_of_lt_of_le (Nat.mod_lt s0 (by omega)) (by norm_num))]
            norm_num]
      · unfold bitsOf
        rw [show (⟨rest, ⟨s0 / 2, 7⟩⟩ : BitReader).remainder
            = ⟨s0 / 2, 7⟩ from rfl, remBits_half]
      · unfold BitSequence.Wf
        show s0 / 2 < 2 ^ 7
        omega
      · intro x hx
        exact hbytes x (by rw [hs]; exact List.mem_cons_of_mem _ hx)
      · exact Nat.mod_lt _ (by omega)

/-- The invariant characterization of the `read_symbol` loop: starting from
an accumulator `acc` with `n = 16 - acc.len` iterations left, the loop fails
with `BadCode` when no prefix extension matches within the remaining
iterations, and returns the *first* matching symbol otherwise, consuming
exactly the matched bits. -/
theorem readSymbolGo_char {T} (m : HuffmanCoding T) :
    ∀ n (acc : BitSequence) (r : BitReader), acc.len + n = 16 →
      acc.Wf → r.remainder.Wf → (∀ x ∈ r.stream, x < 256) →
      ((∀ j, 1 ≤ j → j ≤ n → j ≤ (bitsOf r).length →
          m.decodeSymbol (codeAcc acc ((bitsOf r).take j)) = none) ∧
        n ≤ (bitsOf r).length →
        m.readSymbolGo n acc r = .error .badCode) ∧
      (∀ j t, 1 ≤ j → j ≤ n → j ≤ (bitsOf r).length →
        m.decodeSymbol (codeAcc acc ((bitsOf r).take j)) = some t →
        (∀ i, 1 ≤ i → i < j →
          m.decodeSymbol (codeAcc acc ((bitsOf r).take i)) = none) →
        ∃ r1, m.readSymbolGo n acc r = .ok (t, r1) ∧
          bitsOf r1 = (bitsOf r).drop j) := by
  intro n
  induction n with
  | zero =>
    intro acc r hlen hacc hwf hbytes
    constructor
    · intro _
      rfl
    · intro j t h1 h2 _ _ _
      omega
  | succ n ih =>
    intro acc r hlen hacc hwf hbytes
    rcases readBits_one_bit r hwf hbytes with ⟨hempty, _⟩ |
      ⟨bo, rest, r1, hbitsOf, hok1, hbits1, hwf1, hbytes1, hbo⟩
    · constructor
      · intro ⟨_, hlen2⟩
        rw [hempty] at hlen2
        simp at hlen2
      · intro j t h1 _ h3 _ _
        rw [hempty] at h3
        simp at h3
        omega
    · have haccWf := hacc
      unfold BitSequence.Wf at haccWf
      have h2l : acc.bits * 2 < 2 ^ 16 := by
        have h15 : acc.bits < 2 ^ 15 :=
          lt_of_lt_of_le haccWf (Nat.pow_le_pow_right (by omega) (by omega))
        omega
      have hor2 : 2 * acc.bits ||| bo = 2 * acc.bits + bo := by
        have h := (Nat.mul_add_lt_is_or
          (show bo < 2 ^ 1 from by omega) acc.bits).symm
        norm_num at h
        exact h
      have hconcat : acc.concat ⟨bo, 1⟩
          = .ok ⟨2 * acc.bits + bo, acc.len + 1⟩ := by
        unfold BitSequence.concat
        rw [if_neg (by norm_num; omega), if_neg (by norm_num)]
        rw [Nat.shiftLeft_eq, show (2 : Nat) ^ 1 = 2 from rfl,
          Nat.mod_eq_of_lt h2l, Nat.mul_comm acc.bits 2, hor2]
      have hgo : m.readSymbolGo (n + 1) acc r =
          match m.decodeSymbol ⟨2 * acc.bits + bo, acc.len + 1⟩ with
          | some t => .ok (t, r1)
          | none => m.readSymbolGo n ⟨2 * acc.bits + bo, acc.len + 1⟩ r1 := by
        conv_lhs => rw [HuffmanCoding.readSymbolGo]
        simp only [hok1, hconcat]
      have htake1 : (bitsOf r).take 1 = [bo] := by
        rw [hbitsOf]
        rfl
      have hacc1 : codeAcc acc ((bitsOf r).take 1)
          = ⟨2 * acc.bits + bo, acc.len + 1⟩ := by
        rw [htake1]
        unfold codeAcc
        simp [List.foldl]
      cases hdec : m.decodeSymbol ⟨2 * acc.bits + bo, acc.len + 1⟩ with
      | some t0 =>
        have hfin : m.readSymbolGo (n + 1) acc r = .ok (t0, r1) := by
          rw [hgo, hdec]
        constructor
        · intro ⟨hnone, _⟩
          exfalso
          have hz := hnone 1 (by omega) (by omega) (by rw [hbitsOf]; simp)
          rw [hacc1, hdec] at hz
          exact absurd hz (by simp)
        · intro j t h1 h2 h3 hmatch hmin
          have hj1 : j = 1 := by
            by_contra hne
            have hz := hmin 1 (by omega) (by omega)
            rw [hacc1, hdec] at hz
            exact absurd hz (by simp)
          subst hj1
          rw [hacc1, hdec] at hmatch
          simp only [Option.some.injEq] at hmatch
          subst hmatch
          refine ⟨r1, hfin, ?_⟩
          rw [hbits1, hbitsOf]
          simp
      | none =>
        have hstep : m.readSymbolGo (n + 1) acc r
            = m.readSymbolGo n ⟨2 * acc.bits + bo, acc.len + 1⟩ r1 := by
          rw [hgo, hdec]
        have haccWf1 : BitSequence.Wf ⟨2 * acc.bits + bo, acc.len + 1⟩ := by
          unfold BitSequence.Wf
          show 2 * acc.bits + bo < 2 ^ (acc.len + 1)
          rw [Nat.pow_succ]
          omega
        obtain ⟨ihA, ihB⟩ := ih ⟨2 * acc.bits + bo, acc.len + 1⟩ r1
          (by show acc.len + 1 + n = 16; omega) haccWf1 hwf1 hbytes1
        have htrans : ∀ j', codeAcc ⟨2 * acc.bits + bo, acc.len + 1⟩
              ((bitsOf r1).take j')
            = codeAcc acc ((bitsOf r).take (j' + 1)) := by
          intro j'
          rw [hbits1, hbitsOf, List.take_succ_cons, codeAcc_cons]
        constructor
        · intro ⟨hnone, hlen2⟩
          rw [hstep]
          apply ihA
          refine ⟨?_, ?_⟩
          · intro j' hj1 hj2 hj3
            rw [htrans j']
            refine hnone (j' + 1) (by omega) (by omega) ?_
            rw [hbitsOf]
            rw [hbits1] at hj3
            simp only [List.length_cons]
            omega
          · rw [hbits1]
            rw [hbitsOf] at hlen2
            simp only [List.length_cons] at hlen2
            omega
        · intro j t h1 h2 h3 hmatch hmin
          have hj2 : 2 ≤ j := by
            by_contra hlt
            have hj1 : j = 1 := by omega
            subst hj1
            rw [hacc1, hdec] at hmatch
            exact absurd hmatch (by simp)
          obtain ⟨r2, hr2, hb2⟩ := ihB (j - 1) t (by omega) (by omega)
            (by rw [hbits1]
                rw [hbitsOf] at h3
                simp only [List.length_cons] at h3
                omega)
            (by rw [htrans, show j - 1 + 1 = j from by omega]
                exact hmatch)
            (by intro i hi1 hi2
                rw [htrans]
                exact hmin (i + 1) (by omega) (by omega))
          refine ⟨r2, by rw [hstep]; exact hr2, ?_⟩
          rw [hb2, hbits1, hbitsOf]
          conv_rhs => rw [show j = j - 1 + 1 from by omega]
          rw [List.drop_succ_cons]

/-- C8: `read_symbol` reads one bit at a time, accumulating a growing code
word (earlier bits in higher positions), and looks the accumulator up by the
joint (bits, len) pair after every bit.  It returns the first symbol whose
full code word matches — a proper prefix that is not itself in the table
never matches — and if no symbol has matched after 16 accumulated bits it
fails with `BadCode` without reading any further bit. -/
theorem readSymbol_spec {T} (m : HuffmanCoding T) (r : BitReader)
    (hwf : r.remainder.Wf) (hbytes : ∀ x ∈ r.stream, x < 256) :
    ((∀ j, 1 ≤ j → j ≤ 16 → j ≤ (bitsOf r).length →
        m.decodeSymbol (codeAcc ⟨0, 0⟩ ((bitsOf r).take j)) = none) →
      16 ≤ (bitsOf r).length →
      m.readSymbol r = .error .badCode) ∧
    (∀ j t, 1 ≤ j → j ≤ 16 → j ≤ (bitsOf r).length →
      m.decodeSymbol (codeAcc ⟨0, 0⟩ ((bitsOf r).take j)) = some t →
      (∀ i, 1 ≤ i → i < j →
        m.decodeSymbol (codeAcc ⟨0, 0⟩ ((bitsOf r).take i)) = none) →
      ∃ r1, m.readSymbol r = .ok (t, r1) ∧ bitsOf r1 = (bitsOf r).drop j) := by
  obtain ⟨hA, hB⟩ := readSymbolGo_char m 16 ⟨0, 0⟩ r (by norm_num)
    (by unfold BitSequence.Wf; norm_num) hwf hbytes
  exact ⟨fun hnone hlen => hA ⟨hnone, hlen⟩, hB⟩

/-- Witness for `readSymbol_spec`: a one-entry table mapping the 2-bit code
`10` (bits value 2) to symbol 42, read from the byte `0x01`; the first bit
alone does not match, the two-bit accumulator does, and six bits remain. -/
theorem readSymbol_spec_witness :
    (HuffmanCoding.mk [(⟨2, 2⟩, (42 : Nat))]).decodeSymbol
        (codeAcc ⟨0, 0⟩ ((bitsOf (BitReader.new [1])).take 2)) = some 42 ∧
    ∃ r1, (HuffmanCoding.mk [(⟨2, 2⟩, (42 : Nat))]).readSymbol (BitReader.new [1])
        = .ok (42, r1) ∧ bitsOf r1 = (bitsOf (BitReader.new [1])).drop 2 := by
  refine ⟨by decide, ?_⟩
  exact (readSymbol_spec (HuffmanCoding.mk [(⟨2, 2⟩, (42 : Nat))])
    (BitReader.new [1]) (by decide) (by decide)).2 2 42 (by decide) (by decide)
    (by decide) (by decide)
    (by intro i hi1 hi2
        have hi : i = 1 := by omega
        subst hi
        decide)

/-! ## C10: invalid UTF-8 in NAME/COMMENT aborts decompression -/

/-- The optional-field stage returns `InvalidUtf8` whenever the NAME bytes
(up to and including the NUL) are invalid UTF-8, or the NAME is valid (or
absent) and the COMMENT bytes are invalid UTF-8. -/
theorem parseHeaderTail_invalid_utf8 (flg cm mtime xfl os : Nat) (s : List Nat)
    (hextra : flg.testBit 2 = false)
    (hbad :
      (flg.testBit 3 = true ∧ utf8Valid (readUntilNul s).1 = false) ∨
      (flg.testBit 3 = true ∧ utf8Valid (readUntilNul s).1 = true ∧
        flg.testBit 4 = true ∧
        utf8Valid (readUntilNul (readUntilNul s).2).1 = false) ∨
      (flg.testBit 3 = false ∧ flg.testBit 4 = true ∧
        utf8Valid (readUntilNul s).1 = false)) :
    parseHeader.parseHeaderTail flg cm mtime xfl os s = .error .invalidUtf8 := by
  rcases hbad with ⟨h3, hnv⟩ | ⟨h3, hv, h4, hcv⟩ | ⟨h3, h4, hnv⟩
  · simp [parseHeader.parseHeaderTail, hextra, h3, hnv]
  · simp [parseHeader.parseHeaderTail, hextra, h3, h4, hv, hcv]
  · simp [parseHeader.parseHeaderTail, hextra, h3, h4, hnv]

/-- **C10.**  If a member's FNAME bytes (everything `read_until` consumed,
NUL included) are not valid UTF-8 — or its FNAME is valid or absent and its
FCOMMENT bytes are not valid UTF-8 — then `parse_header` fails with the
`String::from_utf8` error (`InvalidUtf8`) and `decompress` returns that
error for every fuel and every payload, before the DEFLATE payload is
touched, even though gzip permits arbitrary Latin-1 bytes in those
fields. -/
theorem decompress_rejects_invalid_utf8
    (flg m0 m1 m2 m3 xfl os fuel : Nat) (s : List Nat)
    (hextra : flg.testBit 2 = false)
    (hbad :
      (flg.testBit 3 = true ∧ utf8Valid (readUntilNul s).1 = false) ∨
      (flg.testBit 3 = true ∧ utf8Valid (readUntilNul s).1 = true ∧
        flg.testBit 4 = true ∧
        utf8Valid (readUntilNul (readUntilNul s).2).1 = false) ∨
      (flg.testBit 3 = false ∧ flg.testBit 4 = true ∧
        utf8Valid (readUntilNul s).1 = false)) :
    parseHeader (0x1f :: 0x8b :: 8 :: flg :: m0 :: m1 :: m2 :: m3
        :: xfl :: os :: s) = .error .invalidUtf8 ∧
    decompress fuel (0x1f :: 0x8b :: 8 :: flg :: m0 :: m1 :: m2 :: m3
        :: xfl :: os :: s) = .error .invalidUtf8 := by
  have ht := parseHeaderTail_invalid_utf8 flg 8
    (m0 + 256 * m1 + 65536 * m2 + 16777216 * m3) xfl os s hextra hbad
  have hp : parseHeader (0x1f :: 0x8b :: 8 :: flg :: m0 :: m1 :: m2 :: m3
      :: xfl :: os :: s) = .error .invalidUtf8 := by
    unfold parseHeader
    simp only [readU8, readU32LE]
    norm_num
    exact ht
  refine ⟨hp, ?_⟩
  simp only [decompress, hp]

/-- Witness for `decompress_rejects_invalid_utf8`: FLG = 8 (FNAME only),
name bytes `FF 00` (0xFF can never appear in UTF-8); both `parse_header`
and `decompress` report `InvalidUtf8`. -/
theorem decompress_rejects_invalid_utf8_witness :
    (8 : Nat).testBit 2 = false ∧
    (8 : Nat).testBit 3 = true ∧
    utf8Valid (readUntilNul [0xFF, 0]).1 = false ∧
    parseHeader [0x1f, 0x8b, 8, 8, 0, 0, 0, 0, 0, 0, 0xFF, 0]
        = .error .invalidUtf8 ∧
    decompress 1 [0x1f, 0x8b, 8, 8, 0, 0, 0, 0, 0, 0, 0xFF, 0]
        = .error .invalidUtf8 := by
  refine ⟨by decide, by decide, by decide, ?_, ?_⟩
  · exact (decompress_rejects_invalid_utf8 8 0 0 0 0 0 0 1 [0xFF, 0]
      (by decide) (Or.inl ⟨by decide, by decide⟩)).1
  · exact (decompress_rejects_invalid_utf8 8 0 0 0 0 0 0 1 [0xFF, 0]
      (by decide) (Or.inl ⟨by decide, by decide⟩)).2

end Ripgzip
